import Mathlib

/-!
Verification of the chunk-iterator core of a RIFF container reader
(`riff_file_reader.c` / `riff_file_reader.h`).

The C code is shallowly embedded as follows.

* The mapped file is a byte list `f : List Nat`; a pointer into the mapping
  is an offset (`Nat`).  `f.getD i 0` models dereferencing byte `i`.
* The iterator struct (`struct riff_file_iterator_s`) holds a cursor
  (`addr`) and the live prefix `list_size[0..list_level]` of the budget
  array.  Cells of the C array above `list_level` are dead (they are always
  rewritten before being read again), so the live part is kept as a stack
  `sizes : List Nat` whose head is the budget of the current (deepest)
  level and whose last element is the budget of level 0.  The C value
  `list_level` is `sizes.length - 1`.
* `riff_file_data_chunk_iterator_next` is the fuelled function `nextF`
  (the C function recurses on `LIST`/`INFO` tags; fuel bounds that
  recursion, `Err.outOfFuel` marks exhaustion and is never confused with
  a result of the C code).  The failed `assert(list_level <
  RIFF_FILE_NESTED_LIST_MAX_LEVELS)` is `Err.assertFail`.
* Calls of the two optional callbacks, the `perror`/`printf` underflow
  reports of `sub_all_lists`, and returned leaf chunks are observed as a
  trace of `Ev` values in emission order.
-/

/-- Tag bytes of "LIST". -/
def LISTtag : List Nat := [76, 73, 83, 84]

/-- Tag bytes of "INFO". -/
def INFOtag : List Nat := [73, 78, 70, 79]

/-- Tag bytes of "movi". -/
def MOVItag : List Nat := [109, 111, 118, 105]

/-- Tag bytes of "RIFF" (`RIFF_FILE_TYPE_CHUNK_MAGIC`). -/
def RIFFtag : List Nat := [82, 73, 70, 70]

/-- Tag bytes of "WAVE". -/
def WAVEtag : List Nat := [87, 65, 86, 69]

/-- Read the 4 bytes at offset `i` (a `char[4]` field, as compared by `memcmp`). -/
def read4 (f : List Nat) (i : Nat) : List Nat :=
  [f.getD i 0, f.getD (i + 1) 0, f.getD (i + 2) 0, f.getD (i + 3) 0]

/-- Read the little-endian `uint32_t` at offset `i` (a `size` field). -/
def readU32 (f : List Nat) (i : Nat) : Nat :=
  f.getD i 0 + 256 * f.getD (i + 1) 0 + 65536 * f.getD (i + 2) 0 +
    16777216 * f.getD (i + 3) 0

/-- Little-endian encoding of a `uint32_t`. -/
def u32le (n : Nat) : List Nat :=
  [n % 256, n / 256 % 256, n / 65536 % 256, n / 16777216 % 256]

/-- Iterator state: cursor offset and the live budget stack
(`list_size[0..list_level]`, head = current level, last = level 0, so
`list_level = sizes.length - 1`). -/
structure Iter where
  addr : Nat
  sizes : List Nat
deriving DecidableEq, Repr

/-- Observable events of one traversal, in emission order. -/
inductive Ev where
  /-- `list_start_cb(iter, level, list->id, list->size, list->type)`;
  `off` is the cursor at the list header (ghost observation). -/
  | listStart (level : Nat) (off : Nat) (id : List Nat) (size : Nat) (ty : List Nat)
  /-- `list_end_cb(iter, level)`. -/
  | listEnd (level : Nat)
  /-- the underflow report of `sub_all_lists` (depth index, value left, length charged). -/
  | underflow (depth : Nat) (left : Nat) (len : Nat)
  /-- a leaf subchunk returned by `next` (ghost observation of the return). -/
  | chunk (off : Nat) (id : List Nat) (size : Nat)
deriving DecidableEq, Repr

/-- The view returned by `next`: offset of the `riff_file_data_subchunk_s`
header, its `id` bytes and `size`; the payload pointer is `off + 8`. -/
structure Chunk where
  off : Nat
  id : List Nat
  size : Nat
deriving DecidableEq, Repr

/-- Abnormal outcomes of the embedded `next`. -/
inductive Err where
  /-- the failed `assert(it->list_level < RIFF_FILE_NESTED_LIST_MAX_LEVELS)`. -/
  | assertFail
  /-- fuel exhaustion of the embedding (not a behaviour of the C code). -/
  | outOfFuel
deriving DecidableEq, Repr

/-- `sub_all_lists` declares its charge parameter as `int`, but its call
sites pass `uint32_t` values (`list->size`, `subchunk->size`, and the
literals 8 and 4).  On the LP64 platform the code targets, a value `v`
in `[2^31, 2^32)` wraps to the negative `int` `v - 2^32`, and the
comparison `it->list_size[i] >= (size_t)len` (like the `-= len`
compound assignment) then uses the sign-extended `size_t` value
`2^64 - 2^32 + v`.  `toSizeT v` is that effective charge. -/
def toSizeT (v : Nat) : Nat :=
  if v < 2147483648 then v else 18446744073709551616 - 4294967296 + v

/-- One cell of `sub_all_lists`: subtract the effective charge if the
budget holds it, else clamp to 0.  Since the guard ensures
`list_size[i] ≥ (size_t)len`, the `-=` never wraps. -/
def chargeOne (len sz : Nat) : Nat :=
  if toSizeT len ≤ sz then sz - toSizeT len else 0

/-- `sub_all_lists` acting on the live budget stack (the C loop runs over
exactly the live cells `0..list_level`). -/
def subAllSizes (len : Nat) (szs : List Nat) : List Nat := szs.map (chargeOne len)

/-- Underflow reports of one `sub_all_lists` call, in the C loop order
(depth 0 upward; depth `d` lives at stack index `length - 1 - d`).  A
report fires whenever the budget is below the effective charge
`toSizeT len`; the event records the depth, the budget left, and the
`uint32_t` byte count passed at the call site (the `printf` renders the
latter, and the budget, through `%d`, i.e. possibly as negatives). -/
def uEvs (len : Nat) (szs : List Nat) : List Ev :=
  (List.range szs.length).filterMap fun d =>
    let left := szs.getD (szs.length - 1 - d) 0
    if left < toSizeT len then some (Ev.underflow d left len) else none

/-- Charges below `2^31` survive the `int` conversion unchanged: the
effective charge is the byte count itself. -/
theorem toSizeT_small (v : Nat) (h : v < 2147483648) : toSizeT v = v := by
  simp [toSizeT, h]

/-- The level-closure loop at the head of `next`: while `list_level > 0`
and the current level's budget is 0, fire `list_end_cb` and pop. -/
def drainS : List Nat → List Nat × List Ev
  | [] => ([], [])
  | [x] => ([x], [])
  | 0 :: y :: rest =>
    let r := drainS (y :: rest)
    (r.1, Ev.listEnd (y :: rest).length :: r.2)
  | x :: y :: rest => (x :: y :: rest, [])

/-- Prefix the events of a `next` outcome (used where the C function
returns the value of its recursive call after having already emitted
events). -/
def wrapEvs (pre : List Ev) :
    Except Err (Option Chunk × Iter × List Ev) →
      Except Err (Option Chunk × Iter × List Ev)
  | Except.error e => Except.error e
  | Except.ok (c, t, evs) => Except.ok (c, t, pre ++ evs)

/-- `riff_file_data_chunk_iterator_next`, with fuel bounding the C
function's self-recursion.  Returns the chunk view (`none` = end of
stream), the successor state and the emitted events. -/
def nextF (f : List Nat) : Nat → Iter → Except Err (Option Chunk × Iter × List Ev)
  | 0, _ => Except.error Err.outOfFuel
  | fuel + 1, s =>
    let cur := s.addr
    let dr := drainS s.sizes
    let szs := dr.1
    if szs = [0] then
      -- list_level == 0 && list_size[0] == 0: end of file
      Except.ok (none, ⟨s.addr, szs⟩, dr.2)
    else if read4 f cur = LISTtag then
      -- list_level++; assert(list_level < RIFF_FILE_NESTED_LIST_MAX_LEVELS)
      if szs.length < 10 then
        let lsize := readU32 f (cur + 4)
        let lty := read4 f (cur + 8)
        -- it->addr += 8; sub_all_lists(it, 8); it->list_size[new] = list->size
        let szs2 := lsize :: subAllSizes 8 szs
        if lty = MOVItag then
          -- it->addr += list->size; sub_all_lists(it, list->size)
          wrapEvs (dr.2 ++ uEvs 8 szs ++ uEvs lsize szs2 ++
              [Ev.listStart szs.length cur LISTtag lsize lty])
            (nextF f fuel ⟨cur + 8 + lsize, subAllSizes lsize szs2⟩)
        else
          -- it->addr += 4; sub_all_lists(it, 4)
          wrapEvs (dr.2 ++ uEvs 8 szs ++ uEvs 4 szs2 ++
              [Ev.listStart szs.length cur LISTtag lsize lty])
            (nextF f fuel ⟨cur + 8 + 4, subAllSizes 4 szs2⟩)
      else Except.error Err.assertFail
    else if read4 f cur = INFOtag then
      wrapEvs (dr.2 ++ uEvs 4 szs) (nextF f fuel ⟨cur + 4, subAllSizes 4 szs⟩)
    else
      let csize := readU32 f (cur + 4)
      Except.ok (some ⟨cur, read4 f cur, csize⟩,
        ⟨cur + 8 + csize, subAllSizes csize (subAllSizes 8 szs)⟩,
        dr.2 ++ uEvs 8 szs ++ uEvs csize (subAllSizes 8 szs) ++
          [Ev.chunk cur (read4 f cur) csize])

/-- Repeated `next` calls until end of stream, collecting the returned
chunk views and the full event trace. -/
def runAll (f : List Nat) : Nat → Iter → Except Err (List Chunk × Iter × List Ev)
  | 0, _ => Except.error Err.outOfFuel
  | fuel + 1, s =>
    match nextF f (fuel + 1) s with
    | Except.error e => Except.error e
    | Except.ok (none, t, evs) => Except.ok ([], t, evs)
    | Except.ok (some c, t, evs) =>
      match runAll f fuel t with
      | Except.error e => Except.error e
      | Except.ok (cs, u, evs2) => Except.ok (c :: cs, u, evs ++ evs2)

/-- Header validation of `riff_file_open` over the file bytes: mapped
length at least `sizeof(struct riff_file_header_chunk_s)` (12), `id`
equal to "RIFF", `format` equal to the expected type; on success the
handle's `size` is the file length. -/
def riff_file_open (f : List Nat) (ty : List Nat) : Option Nat :=
  if f.length < 12 then none
  else if read4 f 0 = RIFFtag ∧ read4 f 8 = ty then some f.length
  else none

/-- `riff_file_data_chunk_iterator_new` on an open handle of size
`fsize`: cursor after the 12-byte master header, level 0, budget
`fsize - 12`. -/
def riff_iter_new (fsize : Nat) : Iter := ⟨12, [fsize - 12]⟩

/-! ### Shape lemmas for `nextF`

One unfolding lemma per branch of the C dispatch; all later proofs go
through these instead of unfolding `nextF` directly. -/

theorem drainS_noop (szs : List Nat) (h : szs.headD 0 ≠ 0) :
    drainS szs = (szs, []) := by
  match szs with
  | [] => simp at h
  | [x] => simp [drainS]
  | x :: y :: rest =>
    simp only [List.headD_cons] at h
    match x, h with
    | n + 1, _ => simp [drainS]

theorem wrapEvs_ok (pre : List Ev) (c : Option Chunk) (t : Iter) (evs : List Ev) :
    wrapEvs pre (Except.ok (c, t, evs)) = Except.ok (c, t, pre ++ evs) := rfl

theorem wrapEvs_err (pre : List Ev) (e : Err) :
    wrapEvs pre (Except.error e) = Except.error e := rfl

theorem nextF_eos (f : List Nat) (fu : Nat) (s : Iter) (evs : List Ev)
    (h : drainS s.sizes = ([0], evs)) :
    nextF f (fu + 1) s = Except.ok (none, ⟨s.addr, [0]⟩, evs) := by
  simp [nextF, h]

theorem nextF_list_plain (f : List Nat) (fu : Nat) (s : Iter)
    (h0 : s.sizes.headD 0 ≠ 0) (h1 : read4 f s.addr = LISTtag)
    (h2 : s.sizes.length < 10)
    (h3 : read4 f (s.addr + 8) ≠ MOVItag) :
    nextF f (fu + 1) s =
      wrapEvs (uEvs 8 s.sizes ++
          uEvs 4 (readU32 f (s.addr + 4) :: subAllSizes 8 s.sizes) ++
          [Ev.listStart s.sizes.length s.addr LISTtag (readU32 f (s.addr + 4))
            (read4 f (s.addr + 8))])
        (nextF f fu ⟨s.addr + 8 + 4,
          subAllSizes 4 (readU32 f (s.addr + 4) :: subAllSizes 8 s.sizes)⟩) := by
  have hne : s.sizes ≠ [0] := by
    intro he; rw [he] at h0; simp at h0
  simp [nextF, drainS_noop s.sizes h0, eq_false hne, eq_true h1, eq_true h2,
    eq_false h3]

theorem nextF_list_movi (f : List Nat) (fu : Nat) (s : Iter)
    (h0 : s.sizes.headD 0 ≠ 0) (h1 : read4 f s.addr = LISTtag)
    (h2 : s.sizes.length < 10)
    (h3 : read4 f (s.addr + 8) = MOVItag) :
    nextF f (fu + 1) s =
      wrapEvs (uEvs 8 s.sizes ++
          uEvs (readU32 f (s.addr + 4))
            (readU32 f (s.addr + 4) :: subAllSizes 8 s.sizes) ++
          [Ev.listStart s.sizes.length s.addr LISTtag (readU32 f (s.addr + 4))
            (read4 f (s.addr + 8))])
        (nextF f fu ⟨s.addr + 8 + readU32 f (s.addr + 4),
          subAllSizes (readU32 f (s.addr + 4))
            (readU32 f (s.addr + 4) :: subAllSizes 8 s.sizes)⟩) := by
  have hne : s.sizes ≠ [0] := by
    intro he; rw [he] at h0; simp at h0
  simp [nextF, drainS_noop s.sizes h0, eq_false hne, eq_true h1, eq_true h2,
    eq_true h3]

theorem nextF_assert (f : List Nat) (fu : Nat) (s : Iter)
    (h0 : s.sizes.headD 0 ≠ 0) (h1 : read4 f s.addr = LISTtag)
    (h2 : ¬ s.sizes.length < 10) :
    nextF f (fu + 1) s = Except.error Err.assertFail := by
  have hne : s.sizes ≠ [0] := by
    intro he; rw [he] at h0; simp at h0
  simp [nextF, drainS_noop s.sizes h0, eq_false hne, eq_true h1, eq_false h2]

theorem nextF_info (f : List Nat) (fu : Nat) (s : Iter)
    (h0 : s.sizes.headD 0 ≠ 0) (h1 : read4 f s.addr ≠ LISTtag)
    (h2 : read4 f s.addr = INFOtag) :
    nextF f (fu + 1) s =
      wrapEvs (uEvs 4 s.sizes)
        (nextF f fu ⟨s.addr + 4, subAllSizes 4 s.sizes⟩) := by
  have hne : s.sizes ≠ [0] := by
    intro he; rw [he] at h0; simp at h0
  simp [nextF, drainS_noop s.sizes h0, eq_false hne, eq_false h1, eq_true h2]

theorem nextF_leaf (f : List Nat) (fu : Nat) (s : Iter)
    (h0 : s.sizes.headD 0 ≠ 0) (h1 : read4 f s.addr ≠ LISTtag)
    (h2 : read4 f s.addr ≠ INFOtag) :
    nextF f (fu + 1) s =
      Except.ok (some ⟨s.addr, read4 f s.addr, readU32 f (s.addr + 4)⟩,
        ⟨s.addr + 8 + readU32 f (s.addr + 4),
          subAllSizes (readU32 f (s.addr + 4)) (subAllSizes 8 s.sizes)⟩,
        uEvs 8 s.sizes ++ uEvs (readU32 f (s.addr + 4)) (subAllSizes 8 s.sizes) ++
          [Ev.chunk s.addr (read4 f s.addr) (readU32 f (s.addr + 4))]) := by
  have hne : s.sizes ≠ [0] := by
    intro he; rw [he] at h0; simp at h0
  simp [nextF, drainS_noop s.sizes h0, eq_false hne, eq_false h1, eq_false h2]

/-! ### Inversion and monotonicity infrastructure -/

theorem wrapEvs_ok_inv {pre : List Ev} {x : Except Err (Option Chunk × Iter × List Ev)}
    {c : Option Chunk} {t : Iter} {evs : List Ev}
    (h : wrapEvs pre x = Except.ok (c, t, evs)) :
    ∃ evs', x = Except.ok (c, t, evs') ∧ evs = pre ++ evs' := by
  match x with
  | Except.error e => simp [wrapEvs] at h
  | Except.ok (c', t', evs') =>
    simp only [wrapEvs, Except.ok.injEq, Prod.mk.injEq] at h
    obtain ⟨hc, ht, he⟩ := h
    exact ⟨evs', by rw [hc, ht], he.symm⟩

theorem wrapEvs_mono_aux (pre : List Ev)
    (x y : Except Err (Option Chunk × Iter × List Ev))
    (hxy : ∀ r, x = Except.ok r → y = Except.ok r) :
    ∀ r, wrapEvs pre x = Except.ok r → wrapEvs pre y = Except.ok r := by
  intro r h
  match x, h with
  | Except.ok (c, t, evs), h => rw [hxy (c, t, evs) rfl]; exact h

/-- Fuel monotonicity: a successful `nextF` outcome is stable under more fuel. -/
theorem nextF_mono (f : List Nat) :
    ∀ fu s r, nextF f fu s = Except.ok r →
      ∀ fu', fu ≤ fu' → nextF f fu' s = Except.ok r := by
  intro fu
  induction fu with
  | zero => intro s r h; simp [nextF] at h
  | succ n ih =>
    intro s r h fu' hle
    match fu', hle with
    | m + 1, hle =>
      have hm : n ≤ m := Nat.le_of_succ_le_succ hle
      simp only [nextF] at h ⊢
      split_ifs at h ⊢ <;>
        first
          | exact h
          | exact wrapEvs_mono_aux _ _ _ (fun r2 h2 => ih _ _ h2 _ hm) r h

/-- A `none` (end-of-stream) result always leaves the iterator at level 0
with budget 0 (the stack `[0]`). -/
theorem nextF_none_sizes (f : List Nat) :
    ∀ fu s t evs, nextF f fu s = Except.ok (none, t, evs) → t.sizes = [0] := by
  intro fu
  induction fu with
  | zero => intro s t evs h; simp [nextF] at h
  | succ n ih =>
    intro s t evs h
    simp only [nextF] at h
    split_ifs at h with h1 h2 h3 h4 h5
    · injection h with h'
      injection h' with _ h''
      injection h'' with ht _
      rw [← ht, h1]
    · obtain ⟨evs', hx, -⟩ := wrapEvs_ok_inv h
      exact ih _ _ _ hx
    · obtain ⟨evs', hx, -⟩ := wrapEvs_ok_inv h
      exact ih _ _ _ hx
    · obtain ⟨evs', hx, -⟩ := wrapEvs_ok_inv h
      exact ih _ _ _ hx
    · injection h with h'
      injection h' with hc _
      exact absurd hc (by simp)

/-! ### Concrete files -/

/-- Tag bytes of "fmt ". -/
def FMTtag : List Nat := [102, 109, 116, 32]

/-- Tag bytes of "data". -/
def DATAtag : List Nat := [100, 97, 116, 97]

/-- Scenario A file: `"RIFF" + 36 + "WAVE" + "fmt " + 16 + <16 bytes> +
"data" + 4 + <4 bytes>` (48 bytes). -/
def fileA : List Nat :=
  RIFFtag ++ u32le 36 ++ WAVEtag ++
  FMTtag ++ u32le 16 ++ List.replicate 16 0 ++
  DATAtag ++ u32le 4 ++ [1, 2, 3, 4]

/-- `n` nested `LIST` chunks (type "xxxx"), the innermost empty; each
level's declared size covers exactly its type tag plus its contents. -/
def nestBytes : Nat → List Nat
  | 0 => []
  | n + 1 =>
    LISTtag ++ u32le (4 + (nestBytes n).length) ++ [120, 120, 120, 120] ++
      nestBytes n

/-- A RIFF/WAVE file whose payload is 11 nested `LIST` chunks (144 bytes). -/
def fileDeep : List Nat := RIFFtag ++ u32le 132 ++ WAVEtag ++ nestBytes 11

/-! ### Claims C1, C7, C8 -/

/-- C1: for the minimal file `"RIFF" + size + "WAVE"` followed by leaf
chunks `"fmt "` (size 16) and `"data"` (size 4), open with expected type
`"WAVE"` succeeds, and iteration yields exactly the two chunk views with
ids `"fmt "`, `"data"` and sizes 16, 4 in that order, fires no
list-start/list-end callback (the trace holds only the two returned
chunks), and afterwards `next` returns end-of-stream. -/
theorem c1_minimal_wave_file :
    riff_file_open fileA WAVEtag = some 48 ∧
    runAll fileA 5 (riff_iter_new 48) =
      Except.ok ([⟨12, FMTtag, 16⟩, ⟨36, DATAtag, 4⟩], ⟨48, [0]⟩,
        [Ev.chunk 12 FMTtag 16, Ev.chunk 36 DATAtag 4]) ∧
    nextF fileA 5 ⟨48, [0]⟩ = Except.ok (none, ⟨48, [0]⟩, []) :=
  ⟨rfl, rfl, rfl⟩

set_option maxRecDepth 4000 in
/-- C7: a file with 11 nested `LIST` chunks is accepted by open, but
traversal aborts with the distinct structural-fatal signal (the failed
nesting assert), which is not the recoverable underflow reporting and is
not fuel exhaustion of the embedding. -/
theorem c7_deep_nesting_structural_fatal :
    riff_file_open fileDeep WAVEtag = some 144 ∧
    nextF fileDeep 20 (riff_iter_new 144) = Except.error Err.assertFail ∧
    Err.assertFail ≠ Err.outOfFuel :=
  ⟨rfl, rfl, by decide⟩

/-- C8: end-of-stream is idempotent and terminal: once `next` returns
end-of-stream the state is level 0 with budget 0, and every later call
returns end-of-stream again with the state unchanged and no events
emitted. -/
theorem c8_eos_idempotent (f : List Nat) (fu : Nat) (s t : Iter) (evs : List Ev)
    (h : nextF f fu s = Except.ok (none, t, evs)) :
    ∀ g : Nat, nextF f (g + 1) t = Except.ok (none, t, []) := by
  have hs : t.sizes = [0] := nextF_none_sizes f fu s t evs h
  intro g
  have hd : drainS t.sizes = ([0], []) := by rw [hs]; simp [drainS]
  have he := nextF_eos f g t [] hd
  rw [he]
  have : (⟨t.addr, [0]⟩ : Iter) = t := by
    cases t with
    | mk a szs => simp only at hs; rw [hs]
  rw [this]

/-- Witness for C8 at a concrete end-of-stream state of the Scenario A file. -/
theorem c8_eos_idempotent_witness :
    nextF fileA 1 ⟨48, [0]⟩ = Except.ok (none, ⟨48, [0]⟩, []) :=
  c8_eos_idempotent fileA 5 ⟨48, [0]⟩ ⟨48, [0]⟩ [] rfl 0

/-- C10: every chunk view `next` returns is a leaf: its id is neither
`"LIST"` nor `"INFO"` (both tags are consumed internally and recursed
past instead of being returned). -/
theorem c10_returned_chunks_are_leaves (f : List Nat) :
    ∀ fu s c t evs, nextF f fu s = Except.ok (some c, t, evs) →
      c.id ≠ LISTtag ∧ c.id ≠ INFOtag := by
  intro fu
  induction fu with
  | zero => intro s c t evs h; simp [nextF] at h
  | succ n ih =>
    intro s c t evs h
    simp only [nextF] at h
    split_ifs at h with h1 h2 h3 h4 h5
    all_goals first
      | (obtain ⟨evs', hx, -⟩ := wrapEvs_ok_inv h
         exact ih _ _ _ _ hx)
      | (simp only [Except.ok.injEq, Prod.mk.injEq, Option.some.injEq] at h
         obtain ⟨hc, -⟩ := h
         subst hc
         constructor <;> assumption)
      | exact absurd h (by simp)

/-- Witness for C10 at the first chunk of the Scenario A file. -/
theorem c10_returned_chunks_are_leaves_witness :
    (⟨12, FMTtag, 16⟩ : Chunk).id ≠ LISTtag ∧
      (⟨12, FMTtag, 16⟩ : Chunk).id ≠ INFOtag :=
  c10_returned_chunks_are_leaves fileA 5 (riff_iter_new 48) ⟨12, FMTtag, 16⟩
    ⟨36, [12]⟩ [Ev.chunk 12 FMTtag 16] rfl

/-! ### Budget accessors and the charging semantics (C3, C5) -/

/-- Budget of depth `d` (depth 0 = outermost) in a live budget stack. -/
def budgetAt (szs : List Nat) (d : Nat) : Nat := szs.getD (szs.length - 1 - d) 0

theorem budgetAt_subAll (len : Nat) (szs : List Nat) (d : Nat) (hd : d < szs.length) :
    budgetAt (subAllSizes len szs) d =
      if toSizeT len ≤ budgetAt szs d then budgetAt szs d - toSizeT len else 0 := by
  have hi : szs.length - 1 - d < szs.length := by omega
  simp only [budgetAt, subAllSizes, List.length_map]
  rw [List.getD_eq_getElem _ _ (by simpa using hi), List.getD_eq_getElem _ _ hi,
    List.getElem_map]
  rfl

theorem uEvs_mem (len : Nat) (szs : List Nat) (d : Nat) (hd : d < szs.length) :
    Ev.underflow d (budgetAt szs d) len ∈ uEvs len szs ↔
      budgetAt szs d < toSizeT len := by
  simp only [uEvs, List.mem_filterMap, List.mem_range, budgetAt]
  constructor
  · rintro ⟨a, ha, hg⟩
    by_cases hc : szs.getD (szs.length - 1 - a) 0 < toSizeT len
    · rw [if_pos hc] at hg
      simp only [Option.some.injEq, Ev.underflow.injEq] at hg
      obtain ⟨had, hleft, -⟩ := hg
      rw [had] at hc
      exact hc
    · rw [if_neg hc] at hg
      cases hg
  · intro hlt
    exact ⟨d, hd, by rw [if_pos hlt]⟩

/-- Underflow scenario file: a `LIST` of declared size 16 whose inner
chunk `"itst"` declares size 100, far more than the list's remaining
budget (36 bytes total). -/
def fileUnder : List Nat :=
  RIFFtag ++ u32le 28 ++ WAVEtag ++
  LISTtag ++ u32le 16 ++ [97, 98, 99, 100] ++
  [105, 116, 115, 116] ++ u32le 100 ++ [9, 9, 9, 9]

/-- A file accepted by open whose `LIST` declares size `2^31 + 13` and
whose inner chunk `"itst"` declares size `2^31` (32 bytes total): the
inner chunk's charge reaches `sub_all_lists` as a negative `int`. -/
def fileBig : List Nat :=
  RIFFtag ++ u32le 20 ++ WAVEtag ++
  LISTtag ++ u32le 2147483661 ++ [97, 98, 99, 100] ++
  [105, 116, 115, 116] ++ u32le 2147483648

/-- C3 counterexample: when the inner chunk of `fileBig` is consumed,
`sub_all_lists` runs with the charge `N = 2^31` on the budget stack
`[2^31 + 1, 0]` (depth 1 on top).  Depth 1 holds at least `N`, yet the
`uint32_t → int` conversion makes `(size_t)len ≈ 2^64`, so the code
clamps that budget to 0 — not to `budget - N = 1` — and emits an
underflow report for it, refuting the claimed charging law; the real
traversal of `fileBig` exhibits exactly this. -/
theorem c3_charge_truncation_counterexample :
    riff_file_open fileBig WAVEtag = some 32 ∧
    2147483648 ≤ budgetAt [2147483649, 0] 1 ∧
    budgetAt (subAllSizes 2147483648 [2147483649, 0]) 1 = 0 ∧
    ¬ budgetAt (subAllSizes 2147483648 [2147483649, 0]) 1 =
        budgetAt [2147483649, 0] 1 - 2147483648 ∧
    Ev.underflow 1 2147483649 2147483648 ∈ uEvs 2147483648 [2147483649, 0] ∧
    runAll fileBig 6 (riff_iter_new 32) =
      Except.ok ([⟨24, [105, 116, 115, 116], 2147483648⟩], ⟨2147483680, [0]⟩,
        [Ev.listStart 1 12 LISTtag 2147483661 [97, 98, 99, 100],
         Ev.underflow 0 0 2147483648, Ev.underflow 1 2147483649 2147483648,
         Ev.chunk 24 [105, 116, 115, 116] 2147483648, Ev.listEnd 1]) :=
  ⟨rfl, by decide, by decide, by decide, by decide, rfl⟩

/-- C3 amended: the effective charge is `(size_t)(int)N`, i.e.
`toSizeT N`.  Charging subtracts that value from every depth holding at
least it and clamps every other depth to exactly 0 with an underflow
report for it (and only it); for every `N < 2^31` — all header charges
and any declared size within `int` range — the effective charge is `N`
itself and the subtract-or-clamp law holds exactly as originally
claimed.  The condition is non-fatal: on a file whose inner chunk
declares a size exceeding its enclosing budgets, the traversal still
returns the chunk and then terminates normally at end-of-stream with
the clamped budgets reported, not an error. -/
theorem c3_charge_clamp_nonfatal_amended :
    (∀ len szs d, d < szs.length →
        budgetAt (subAllSizes len szs) d =
          if toSizeT len ≤ budgetAt szs d then
            budgetAt szs d - toSizeT len
          else 0) ∧
    (∀ len szs d, d < szs.length →
        (Ev.underflow d (budgetAt szs d) len ∈ uEvs len szs ↔
          budgetAt szs d < toSizeT len)) ∧
    (∀ len szs d, len < 2147483648 → d < szs.length →
        budgetAt (subAllSizes len szs) d =
          if len ≤ budgetAt szs d then budgetAt szs d - len else 0) ∧
    runAll fileUnder 6 (riff_iter_new 36) =
      Except.ok ([⟨24, [105, 116, 115, 116], 100⟩], ⟨132, [0]⟩,
        [Ev.listStart 1 12 LISTtag 16 [97, 98, 99, 100],
         Ev.underflow 0 4 100, Ev.underflow 1 4 100,
         Ev.chunk 24 [105, 116, 115, 116] 100, Ev.listEnd 1]) := by
  refine ⟨budgetAt_subAll, uEvs_mem, ?_, rfl⟩
  intro len szs d hlen hd
  rw [budgetAt_subAll len szs d hd, toSizeT_small len hlen]

/-- Witness for the amended C3: the claimed law at the in-range charge
100 on the stack `[4, 4]` of the underflow scenario, and the general
law at the truncated charge `2^31`. -/
theorem c3_charge_clamp_nonfatal_amended_witness :
    budgetAt (subAllSizes 100 [4, 4]) 0 =
      (if 100 ≤ budgetAt [4, 4] 0 then budgetAt [4, 4] 0 - 100 else 0) ∧
    (Ev.underflow 0 (budgetAt [4, 4] 0) 100 ∈ uEvs 100 [4, 4] ↔
      budgetAt [4, 4] 0 < toSizeT 100) ∧
    budgetAt (subAllSizes 2147483648 [2147483649, 0]) 1 =
      (if toSizeT 2147483648 ≤ budgetAt [2147483649, 0] 1 then
        budgetAt [2147483649, 0] 1 - toSizeT 2147483648
      else 0) :=
  ⟨c3_charge_clamp_nonfatal_amended.2.2.1 100 [4, 4] 0 (by decide) (by decide),
   c3_charge_clamp_nonfatal_amended.2.1 100 [4, 4] 0 (by decide),
   c3_charge_clamp_nonfatal_amended.1 2147483648 [2147483649, 0] 1 (by decide)⟩

/-- Lines 214-223 of the C file, the moment a new depth is entered:
`it->addr += 8`, `sub_all_lists(it, 8)`, `it->list_level++` guarded by
the nesting assert, then `it->list_size[it->list_level] = list->size`.
Returns the budget stack right after that store (`none` = assert
failure). -/
def listEnterSizes (f : List Nat) (s : Iter) : Option (List Nat) :=
  if s.sizes.length < 10 then
    some (readU32 f (s.addr + 4) :: subAllSizes 8 s.sizes)
  else none

/-- The `LIST` branch of `next` goes through exactly the entry state
described by `listEnterSizes`. -/
theorem nextF_enters_via_listEnterSizes (f : List Nat) (fu : Nat) (s : Iter)
    (szs2 : List Nat) (h0 : s.sizes.headD 0 ≠ 0) (h1 : read4 f s.addr = LISTtag)
    (h3 : read4 f (s.addr + 8) ≠ MOVItag)
    (hE : listEnterSizes f s = some szs2) :
    nextF f (fu + 1) s =
      wrapEvs (uEvs 8 s.sizes ++ uEvs 4 szs2 ++
          [Ev.listStart s.sizes.length s.addr LISTtag (readU32 f (s.addr + 4))
            (read4 f (s.addr + 8))])
        (nextF f fu ⟨s.addr + 8 + 4, subAllSizes 4 szs2⟩) := by
  unfold listEnterSizes at hE
  split_ifs at hE with h2
  injection hE with hE
  subst hE
  exact nextF_list_plain f fu s h0 h1 h2 h3

/-- A file accepted by open whose single `LIST` declares size 100 while
the whole payload is only 12 bytes (open validates nothing beyond the
master header). -/
def fileOversize : List Nat :=
  RIFFtag ++ u32le 16 ++ WAVEtag ++ LISTtag ++ u32le 100 ++ INFOtag

/-- C5 counterexample: `fileOversize` is accepted by open, the first
`next` call dispatches on its `LIST` header, and at the moment depth 1
is entered the budget stack is `[100, 4]`: the new depth's budget 100
exceeds the remaining budget 4 of depth 0, refuting the claimed
invariant for arbitrary accepted files. -/
theorem c5_entry_budget_counterexample :
    riff_file_open fileOversize WAVEtag = some 24 ∧
    read4 fileOversize (riff_iter_new 24).addr = LISTtag ∧
    (riff_iter_new 24).sizes.headD 0 ≠ 0 ∧
    listEnterSizes fileOversize (riff_iter_new 24) = some [100, 4] ∧
    ¬ budgetAt [100, 4] 1 ≤ budgetAt [100, 4] 0 :=
  ⟨rfl, rfl, by decide, rfl, by decide⟩

/-- C5 amended: at the moment a new depth is entered its budget is the
list's declared size, and whenever that declared size is at most the
parent's remaining budget after the 8-byte header charge (as in any file
with consistent declared sizes), the entered depth's budget is at most
the parent depth's. -/
theorem c5_amended_entry_budget (f : List Nat) (s : Iter) (szs2 : List Nat)
    (hne : s.sizes ≠ [])
    (hE : listEnterSizes f s = some szs2)
    (hfit : readU32 f (s.addr + 4) ≤ chargeOne 8 (s.sizes.headD 0)) :
    budgetAt szs2 (szs2.length - 1) ≤ budgetAt szs2 (szs2.length - 2) := by
  obtain ⟨a, rest, hsz⟩ : ∃ a rest, s.sizes = a :: rest := by
    cases hszs : s.sizes with
    | nil => exact absurd hszs hne
    | cons a rest => exact ⟨a, rest, rfl⟩
  unfold listEnterSizes at hE
  split_ifs at hE
  injection hE with hE
  subst hE
  rw [hsz] at hfit ⊢
  simp only [List.headD_cons] at hfit
  simp only [budgetAt, subAllSizes, List.map_cons, List.length_cons,
    List.length_map]
  have e1 : rest.length + 1 + 1 - 1 - (rest.length + 1 + 1 - 1) = 0 := by omega
  have e2 : rest.length + 1 + 1 - 1 - (rest.length + 1 + 1 - 2) = 1 := by omega
  rw [e1, e2]
  simpa using hfit

/-- Scenario C file: `LIST(size 14, type "INFO")` containing one leaf
`"INAM"` of size 2 (34 bytes total). -/
def fileC : List Nat :=
  RIFFtag ++ u32le 26 ++ WAVEtag ++
  LISTtag ++ u32le 14 ++ INFOtag ++ [73, 78, 65, 77] ++ u32le 2 ++ [5, 6]

/-- Witness for the amended C5 at the `LIST` entry of the Scenario C file. -/
theorem c5_amended_entry_budget_witness :
    budgetAt [14, 14] ([14, 14].length - 1) ≤
      budgetAt [14, 14] ([14, 14].length - 2) :=
  c5_amended_entry_budget fileC (riff_iter_new 34) [14, 14] (by decide) rfl
    (by decide)

/-! ### Resource model of open and close (C6, C9) -/

/-- Outcomes of the system calls made by `riff_file_open`, plus the file
contents; `mapAddr` is the address a successful `mmap` returns (a
successful mapping is never at address 0). -/
structure OpenEnv where
  mallocOk : Bool
  openOk : Bool
  statOk : Bool
  mmapOk : Bool
  mapAddr : Nat
  bytes : List Nat

/-- Kernel resources still held when `riff_file_open` returns. -/
structure SysRes where
  fdOpen : Bool
  mapped : Bool
deriving DecidableEq, Repr

/-- `riff_file_open` with its system calls made explicit, tracking which
kernel resources are still held at return, path by path:
malloc failure returns with nothing acquired; open failure frees the
struct; stat failure (lines 81-85) frees the struct and returns with the
descriptor still open; mmap failure closes the descriptor; after a
successful mmap the descriptor is closed, and the two header-validation
failure paths call `munmap(0, f->size)`, which releases the region only
if the mapping happens to live at address 0; success keeps the mapping
(it belongs to the returned handle). -/
def riff_file_open_sys (e : OpenEnv) (ty : List Nat) : Option Nat × SysRes :=
  if !e.mallocOk then (none, ⟨false, false⟩)
  else if !e.openOk then (none, ⟨false, false⟩)
  else if !e.statOk then (none, ⟨true, false⟩)
  else if !e.mmapOk then (none, ⟨false, false⟩)
  else if e.bytes.length < 12 then (none, ⟨false, !(e.mapAddr == 0)⟩)
  else if read4 e.bytes 0 = RIFFtag ∧ read4 e.bytes 8 = ty then
    (some e.bytes.length, ⟨false, true⟩)
  else (none, ⟨false, !(e.mapAddr == 0)⟩)

/-- When every system call succeeds, the syscall-explicit open decides
success exactly as the pure header validation does. -/
theorem riff_file_open_sys_agrees (b : List Nat) (a : Nat) (ty : List Nat) :
    (riff_file_open_sys ⟨true, true, true, true, a, b⟩ ty).1 =
      riff_file_open b ty := by
  unfold riff_file_open_sys riff_file_open
  split_ifs <;> simp_all

/-- C6 (refuted, code bug): three failure paths of `riff_file_open` leak
a resource.  With a successful `open` but failing `fstat`, the function
returns failure with the descriptor still open (the path frees the
struct but never calls `close`).  With a file shorter than the header,
and likewise with a wrong magic, the function returns failure with the
region still mapped whenever the mapping is not at address 0, because
the cleanup calls `munmap(0, f->size)` instead of
`munmap(dump_addr, f->size)`. -/
theorem c6_open_failure_leaks :
    riff_file_open_sys ⟨true, true, false, true, 4096, []⟩ WAVEtag =
      (none, ⟨true, false⟩) ∧
    riff_file_open_sys ⟨true, true, true, true, 4096, [82, 73]⟩ WAVEtag =
      (none, ⟨false, true⟩) ∧
    riff_file_open_sys ⟨true, true, true, true, 4096, List.replicate 12 0⟩
        WAVEtag =
      (none, ⟨false, true⟩) := by
  refine ⟨rfl, rfl, ?_⟩
  decide

/-- `riff_file_close`: `munmap` the region, `perror` on its failure,
`free` the handle, `return 0`.  Input: whether the munmap system call
succeeds.  Output: return value, whether the handle memory was released,
whether a failure diagnostic was reported. -/
def riff_file_close (munmapOk : Bool) : Int × Bool × Bool :=
  (0, true, !munmapOk)

/-- C9 counterexample: the value `riff_file_close` returns is 0 whether
the unmap system call fails or succeeds, so the result does not
distinguish the unmap-failure case from the success case. -/
theorem c9_close_result_counterexample :
    (riff_file_close false).1 = 0 ∧ (riff_file_close true).1 = 0 ∧
    ¬ (riff_file_close false).1 ≠ (riff_file_close true).1 := by
  decide

/-- C9 amended: close always returns 0 regardless of the unmap outcome;
the handle's own memory is released in both cases, and an unmap failure
is reported only through the diagnostic channel (`perror`), not the
return value. -/
theorem c9_close_always_succeeds (b : Bool) :
    (riff_file_close b).1 = 0 ∧ (riff_file_close b).2.1 = true ∧
    ((riff_file_close b).2.2 = true ↔ b = false) := by
  cases b <;> decide

/-- Witness for the amended C9 at a failing unmap. -/
theorem c9_close_always_succeeds_witness :
    (riff_file_close false).1 = 0 ∧ (riff_file_close false).2.1 = true ∧
    ((riff_file_close false).2.2 = true ↔ false = false) :=
  c9_close_always_succeeds false

/-! ### Event offsets (C4) -/

/-- File offset an event originates from: the header offset for list
starts and returned chunks; list ends and underflow reports carry none. -/
def evOff : Ev → Option Nat
  | Ev.listStart _ off _ _ _ => some off
  | Ev.chunk off _ _ => some off
  | _ => none

theorem drainS_evOff (szs : List Nat) : ∀ ev ∈ (drainS szs).2, evOff ev = none := by
  induction szs with
  | nil => intro ev h; simp [drainS] at h
  | cons x rest ih =>
    intro ev h
    match rest with
    | [] => simp [drainS] at h
    | y :: rest' =>
      match x with
      | 0 =>
        simp only [drainS] at h
        rcases List.mem_cons.mp h with h | h
        · rw [h]; rfl
        · exact ih ev h
      | n + 1 => simp [drainS] at h

theorem uEvs_evOff (len : Nat) (szs : List Nat) :
    ∀ ev ∈ uEvs len szs, evOff ev = none := by
  intro ev h
  simp only [uEvs, List.mem_filterMap, List.mem_range] at h
  obtain ⟨a, -, hg⟩ := h
  split_ifs at hg
  injection hg with hg
  rw [← hg]; rfl

/-- The cursor never moves backwards across a `next` call. -/
theorem nextF_addr_mono (f : List Nat) :
    ∀ fu s r, nextF f fu s = Except.ok r → s.addr ≤ r.2.1.addr := by
  intro fu
  induction fu with
  | zero => intro s r h; simp [nextF] at h
  | succ n ih =>
    intro s r h
    obtain ⟨c, t, evs⟩ := r
    simp only [nextF] at h
    split_ifs at h with h1 h2 h3 h4 h5
    · injection h with h'
      injection h' with _ h''
      injection h'' with ht _
      rw [← ht]
    · obtain ⟨evs', hx, -⟩ := wrapEvs_ok_inv h
      refine le_trans ?_ (ih _ (c, t, evs') hx)
      show s.addr ≤ s.addr + 8 + readU32 f (s.addr + 4)
      omega
    · obtain ⟨evs', hx, -⟩ := wrapEvs_ok_inv h
      refine le_trans ?_ (ih _ (c, t, evs') hx)
      show s.addr ≤ s.addr + 8 + 4
      omega
    · obtain ⟨evs', hx, -⟩ := wrapEvs_ok_inv h
      refine le_trans ?_ (ih _ (c, t, evs') hx)
      show s.addr ≤ s.addr + 4
      omega
    · injection h with h'
      injection h' with _ h''
      injection h'' with ht _
      rw [← ht]
      show s.addr ≤ s.addr + 8 + readU32 f (s.addr + 4)
      omega

/-- Every returned chunk view sits at or past the cursor the call started at. -/
theorem nextF_chunk_off_ge (f : List Nat) :
    ∀ fu s c t evs, nextF f fu s = Except.ok (some c, t, evs) → s.addr ≤ c.off := by
  intro fu
  induction fu with
  | zero => intro s c t evs h; simp [nextF] at h
  | succ n ih =>
    intro s c t evs h
    simp only [nextF] at h
    split_ifs at h with h1 h2 h3 h4 h5
    all_goals first
      | (obtain ⟨evs', hx, -⟩ := wrapEvs_ok_inv h
         refine le_trans ?_ (ih _ _ _ _ hx)
         first
           | (show s.addr ≤ s.addr + 8 + readU32 f (s.addr + 4); omega)
           | (show s.addr ≤ s.addr + 8 + 4; omega)
           | (show s.addr ≤ s.addr + 4; omega))
      | (simp only [Except.ok.injEq, Prod.mk.injEq, Option.some.injEq] at h
         obtain ⟨hc, -⟩ := h
         rw [← hc])
      | exact absurd h (by simp)

/-- Every offset-carrying event a `next` call emits sits at or past the
cursor the call started at. -/
theorem nextF_ev_off_ge (f : List Nat) :
    ∀ fu s r, nextF f fu s = Except.ok r →
      ∀ ev ∈ r.2.2, ∀ o, evOff ev = some o → s.addr ≤ o := by
  intro fu
  induction fu with
  | zero => intro s r h; simp [nextF] at h
  | succ n ih =>
    intro s r h
    obtain ⟨c, t, evs⟩ := r
    simp only [nextF] at h
    split_ifs at h with h1 h2 h3 h4 h5
    · injection h with h'
      injection h' with _ h''
      injection h'' with _ hevs
      intro ev hev o ho
      rw [← hevs] at hev
      rw [drainS_evOff s.sizes ev hev] at ho
      cases ho
    · obtain ⟨evs', hx, hevs⟩ := wrapEvs_ok_inv h
      intro ev hev o ho
      rw [hevs] at hev
      rcases List.mem_append.mp hev with hev | hev
      · rcases List.mem_append.mp hev with hev | hev
        · rcases List.mem_append.mp hev with hev | hev
          · rcases List.mem_append.mp hev with hev | hev
            · rw [drainS_evOff s.sizes ev hev] at ho; cases ho
            · rw [uEvs_evOff _ _ ev hev] at ho; cases ho
          · rw [uEvs_evOff _ _ ev hev] at ho; cases ho
        · rcases List.mem_singleton.mp hev with rfl
          injection ho with ho
          omega
      · refine le_trans ?_ (ih _ (c, t, evs') hx ev hev o ho)
        show s.addr ≤ s.addr + 8 + readU32 f (s.addr + 4)
        omega
    · obtain ⟨evs', hx, hevs⟩ := wrapEvs_ok_inv h
      intro ev hev o ho
      rw [hevs] at hev
      rcases List.mem_append.mp hev with hev | hev
      · rcases List.mem_append.mp hev with hev | hev
        · rcases List.mem_append.mp hev with hev | hev
          · rcases List.mem_append.mp hev with hev | hev
            · rw [drainS_evOff s.sizes ev hev] at ho; cases ho
            · rw [uEvs_evOff _ _ ev hev] at ho; cases ho
          · rw [uEvs_evOff _ _ ev hev] at ho; cases ho
        · rcases List.mem_singleton.mp hev with rfl
          injection ho with ho
          omega
      · refine le_trans ?_ (ih _ (c, t, evs') hx ev hev o ho)
        show s.addr ≤ s.addr + 8 + 4
        omega
    · obtain ⟨evs', hx, hevs⟩ := wrapEvs_ok_inv h
      intro ev hev o ho
      rw [hevs] at hev
      rcases List.mem_append.mp hev with hev | hev
      · rcases List.mem_append.mp hev with hev | hev
        · rw [drainS_evOff s.sizes ev hev] at ho; cases ho
        · rw [uEvs_evOff _ _ ev hev] at ho; cases ho
      · refine le_trans ?_ (ih _ (c, t, evs') hx ev hev o ho)
        show s.addr ≤ s.addr + 4
        omega
    · injection h with h'
      injection h' with _ h''
      injection h'' with _ hevs
      intro ev hev o ho
      rw [← hevs] at hev
      rcases List.mem_append.mp hev with hev | hev
      · rcases List.mem_append.mp hev with hev | hev
        · rcases List.mem_append.mp hev with hev | hev
          · rw [drainS_evOff s.sizes ev hev] at ho; cases ho
          · rw [uEvs_evOff _ _ ev hev] at ho; cases ho
        · rw [uEvs_evOff _ _ ev hev] at ho; cases ho
      · rcases List.mem_singleton.mp hev with rfl
        injection ho with ho
        omega

/-- AVI-style file with one `movi`-typed `LIST` (declared size 24: the
type tag plus 20 bytes of raw interleaved data that must not be parsed),
followed by a leaf `"idx1"` of size 0 (52 bytes total). -/
def fileMovi : List Nat :=
  RIFFtag ++ u32le 40 ++ [65, 86, 73, 32] ++
  LISTtag ++ u32le 24 ++ MOVItag ++ List.replicate 20 7 ++
  [105, 100, 120, 49] ++ u32le 0

/-- A budget equal to the charge always collapses to exactly 0: below
`2^31` by exact subtraction, at or above `2^31` by the clamp (the
sign-extended effective charge exceeds any `uint32_t` budget). -/
theorem chargeOne_self (v : Nat) : chargeOne v v = 0 := by
  unfold chargeOne toSizeT
  split_ifs <;> omega

/-- C4: on a `LIST` whose type tag is `"movi"`, `next` advances the
cursor past the list's entire declared size and charges that size
(through `sub_all_lists`, whose `int` parameter makes the effective
charge `toSizeT` of the size) against all live depths including the
newly entered one, collapsing the new depth's budget to exactly 0 in
either regime; the step emits only the movi list's own list-start event
(at the list header's offset) besides the charge's underflow reports,
and every offset-carrying event and every chunk the continuation ever
produces sits at or past the end of the movi payload, so nothing is
ever parsed out of its interior. -/
theorem c4_movi_list_skipped_opaque (f : List Nat) (fu : Nat) (s : Iter)
    (h0 : s.sizes.headD 0 ≠ 0) (h1 : read4 f s.addr = LISTtag)
    (h2 : s.sizes.length < 10)
    (h3 : read4 f (s.addr + 8) = MOVItag) :
    (nextF f (fu + 1) s =
      wrapEvs (uEvs 8 s.sizes ++
          uEvs (readU32 f (s.addr + 4))
            (readU32 f (s.addr + 4) :: subAllSizes 8 s.sizes) ++
          [Ev.listStart s.sizes.length s.addr LISTtag (readU32 f (s.addr + 4))
            MOVItag])
        (nextF f fu ⟨s.addr + 8 + readU32 f (s.addr + 4),
          subAllSizes (readU32 f (s.addr + 4))
            (readU32 f (s.addr + 4) :: subAllSizes 8 s.sizes)⟩)) ∧
    (subAllSizes (readU32 f (s.addr + 4))
        (readU32 f (s.addr + 4) :: subAllSizes 8 s.sizes)).headD 0 = 0 ∧
    (∀ d, d < s.sizes.length →
      budgetAt (subAllSizes (readU32 f (s.addr + 4)) (subAllSizes 8 s.sizes)) d =
        if toSizeT (readU32 f (s.addr + 4)) ≤
            budgetAt (subAllSizes 8 s.sizes) d then
          budgetAt (subAllSizes 8 s.sizes) d - toSizeT (readU32 f (s.addr + 4))
        else 0) ∧
    (∀ r, nextF f fu ⟨s.addr + 8 + readU32 f (s.addr + 4),
        subAllSizes (readU32 f (s.addr + 4))
          (readU32 f (s.addr + 4) :: subAllSizes 8 s.sizes)⟩ = Except.ok r →
      (∀ ev ∈ r.2.2, ∀ o, evOff ev = some o →
        s.addr + 8 + readU32 f (s.addr + 4) ≤ o) ∧
      (∀ c, r.1 = some c → s.addr + 8 + readU32 f (s.addr + 4) ≤ c.off)) := by
  refine ⟨?_, ?_, ?_, ?_⟩
  · have h := nextF_list_movi f fu s h0 h1 h2 h3
    rw [h3] at h
    exact h
  · simp [subAllSizes, chargeOne_self]
  · intro d hd
    exact budgetAt_subAll (readU32 f (s.addr + 4)) (subAllSizes 8 s.sizes) d
      (by simpa [subAllSizes] using hd)
  · intro r hr
    constructor
    · intro ev hev o ho
      exact nextF_ev_off_ge f fu _ r hr ev hev o ho
    · intro c hc
      obtain ⟨co, t, evs⟩ := r
      simp only at hc
      rw [hc] at hr
      exact nextF_chunk_off_ge f fu _ c t evs hr

/-- Witness for C4 at the movi list of `fileMovi`: the collapsed new
budget, and the first chunk the continuation returns (the `"idx1"` leaf
at offset 44) lies past the movi payload, which ends at `12 + 8 + 24 = 44`. -/
theorem c4_movi_list_skipped_opaque_witness :
    (subAllSizes (readU32 fileMovi (12 + 4))
        (readU32 fileMovi (12 + 4) :: subAllSizes 8 [40])).headD 0 = 0 ∧
    12 + 8 + readU32 fileMovi (12 + 4) ≤ (⟨44, [105, 100, 120, 49], 0⟩ : Chunk).off := by
  have h := c4_movi_list_skipped_opaque fileMovi 3 ⟨12, [40]⟩ (by decide) rfl
    (by decide) rfl
  refine ⟨h.2.1, ?_⟩
  exact (h.2.2.2 (some ⟨44, [105, 100, 120, 49], 0⟩, ⟨52, [0]⟩,
      [Ev.listEnd 1, Ev.chunk 44 [105, 100, 120, 49] 0]) rfl).2
    ⟨44, [105, 100, 120, 49], 0⟩ rfl

/-! ### Well-formed files (C2)

A well-formed chunk sequence is a forest: a cons-list of leaf chunks,
`LIST` containers and opaque `movi` containers, each list's declared
size covering exactly its type tag plus its serialized contents. -/

/-- Forest of sibling chunks (head chunk and the rest of the sequence). -/
inductive Forest where
  | nil : Forest
  | leaf (id : List Nat) (payload : List Nat) (rest : Forest) : Forest
  | listC (ty : List Nat) (inner : Forest) (rest : Forest) : Forest
  | moviC (payload : List Nat) (rest : Forest) : Forest

/-- Serialization of a forest into file bytes. -/
def serF : Forest → List Nat
  | Forest.nil => []
  | Forest.leaf id p rest => id ++ u32le p.length ++ p ++ serF rest
  | Forest.listC ty inner rest =>
    LISTtag ++ u32le (4 + (serF inner).length) ++ ty ++ serF inner ++ serF rest
  | Forest.moviC p rest =>
    LISTtag ++ u32le (4 + p.length) ++ MOVItag ++ p ++ serF rest

/-- Well-formedness at nesting allowance `k`: ids are 4 bytes and not
the internally consumed `"LIST"`/`"INFO"` tags, list types are 4 bytes
and not `"movi"` for structural lists, declared sizes fit in the
non-negative `int` range (`sub_all_lists` takes the charge through an
`int` parameter and casts it to `size_t`, so a declared size in
`[2^31, 2^32)` is charged as a huge number and clamps every live budget
— see the C3 counterexample — hence such files are not well-formed),
and lists only occur while allowance remains. -/
def wfF : Nat → Forest → Bool
  | _, Forest.nil => true
  | k, Forest.leaf id p rest =>
    decide (id.length = 4) && decide (id ≠ LISTtag) && decide (id ≠ INFOtag) &&
      decide (p.length < 2147483648) && wfF k rest
  | k, Forest.listC ty inner rest =>
    decide (0 < k) && decide (ty.length = 4) && decide (ty ≠ MOVItag) &&
      decide (4 + (serF inner).length < 2147483648) &&
      wfF (k - 1) inner && wfF k rest
  | k, Forest.moviC p rest =>
    decide (0 < k) && decide (4 + p.length < 2147483648) && wfF k rest

/-- The event trace the iterator is expected to emit for a forest laid
out at file offset `a` while the iterator is at depth `d`. -/
def trF : Nat → Nat → Forest → List Ev
  | _, _, Forest.nil => []
  | a, d, Forest.leaf id p rest =>
    Ev.chunk a id p.length :: trF (a + 8 + p.length) d rest
  | a, d, Forest.listC ty inner rest =>
    Ev.listStart (d + 1) a LISTtag (4 + (serF inner).length) ty ::
      (trF (a + 12) (d + 1) inner ++
        Ev.listEnd (d + 1) :: trF (a + 12 + (serF inner).length) d rest)
  | a, d, Forest.moviC p rest =>
    Ev.listStart (d + 1) a LISTtag (4 + p.length) MOVItag ::
      Ev.listEnd (d + 1) :: trF (a + 12 + p.length) d rest

/-- The chunk views the iterator is expected to return for a forest laid
out at file offset `a`. -/
def chF : Nat → Forest → List Chunk
  | _, Forest.nil => []
  | a, Forest.leaf id p rest => ⟨a, id, p.length⟩ :: chF (a + 8 + p.length) rest
  | a, Forest.listC _ inner rest =>
    chF (a + 12) inner ++ chF (a + 12 + (serF inner).length) rest
  | a, Forest.moviC p rest => chF (a + 12 + p.length) rest

/-! ### Byte-segment reading lemmas -/

theorem getD_seg (pre mid post : List Nat) (j : Nat) (hj : j < mid.length) :
    (pre ++ (mid ++ post)).getD (pre.length + j) 0 = mid.getD j 0 := by
  rw [List.getD_append_right _ _ _ _ (Nat.le_add_right _ _),
    Nat.add_sub_cancel_left, List.getD_append _ _ _ _ hj]

theorem exists_len4 (w : List Nat) (h : w.length = 4) :
    ∃ b0 b1 b2 b3, w = [b0, b1, b2, b3] := by
  match w with
  | [b0, b1, b2, b3] => exact ⟨b0, b1, b2, b3, rfl⟩
  | [] => simp at h
  | [_] => simp at h
  | [_, _] => simp at h
  | [_, _, _] => simp at h
  | _ :: _ :: _ :: _ :: _ :: _ => simp at h

theorem read4_seg (pre w post : List Nat) (hw : w.length = 4) :
    read4 (pre ++ (w ++ post)) pre.length = w := by
  obtain ⟨b0, b1, b2, b3, rfl⟩ := exists_len4 w hw
  have h0 := getD_seg pre [b0, b1, b2, b3] post 0 (by simp)
  have h1 := getD_seg pre [b0, b1, b2, b3] post 1 (by simp)
  have h2 := getD_seg pre [b0, b1, b2, b3] post 2 (by simp)
  have h3 := getD_seg pre [b0, b1, b2, b3] post 3 (by simp)
  rw [Nat.add_zero] at h0
  simp only [read4, h0, h1, h2, h3]
  rfl

theorem readU32_seg (pre : List Nat) (n : Nat) (post : List Nat)
    (hn : n < 4294967296) :
    readU32 (pre ++ (u32le n ++ post)) pre.length = n := by
  have h0 := getD_seg pre (u32le n) post 0 (by simp [u32le])
  have h1 := getD_seg pre (u32le n) post 1 (by simp [u32le])
  have h2 := getD_seg pre (u32le n) post 2 (by simp [u32le])
  have h3 := getD_seg pre (u32le n) post 3 (by simp [u32le])
  rw [Nat.add_zero] at h0
  simp only [u32le, List.getD_cons_zero, List.getD_cons_succ] at h0 h1 h2 h3
  simp only [readU32, u32le]
  rw [h0, h1, h2, h3]
  omega

/-! ### Charging on well-budgeted stacks -/

theorem uEvs_nil (len : Nat) (szs : List Nat) (h31 : len < 2147483648)
    (h : ∀ b ∈ szs, len ≤ b) :
    uEvs len szs = [] := by
  simp only [uEvs, List.filterMap_eq_nil_iff]
  intro d hd
  rw [List.mem_range] at hd
  have hi : szs.length - 1 - d < szs.length := by omega
  have hb : szs.getD (szs.length - 1 - d) 0 ∈ szs := by
    rw [List.getD_eq_getElem _ _ hi]
    exact List.getElem_mem _
  rw [toSizeT_small len h31, if_neg (by exact Nat.not_lt.mpr (h _ hb))]

theorem subAll_ge (len : Nat) (szs : List Nat) (h31 : len < 2147483648)
    (h : ∀ b ∈ szs, len ≤ b) :
    subAllSizes len szs = szs.map (fun b => b - len) := by
  apply List.map_congr_left
  intro b hb
  simp [chargeOne, toSizeT_small len h31, h b hb]

theorem subAll_twice (l1 l2 : Nat) (szs : List Nat)
    (h31 : l1 < 2147483648) (h32 : l2 < 2147483648)
    (h : ∀ b ∈ szs, l1 + l2 ≤ b) :
    subAllSizes l2 (subAllSizes l1 szs) = szs.map (fun b => b - (l1 + l2)) := by
  simp only [subAllSizes, List.map_map]
  apply List.map_congr_left
  intro b hb
  have hle := h b hb
  simp only [Function.comp_apply, chargeOne, toSizeT_small l1 h31,
    toSizeT_small l2 h32]
  split_ifs <;> omega

theorem map_sub_map_sub (szs : List Nat) (m l : Nat) :
    (szs.map (fun b => b - m)).map (fun b => b - l) =
      szs.map (fun b => b - (m + l)) := by
  rw [List.map_map]
  apply List.map_congr_left
  intro b _
  simp only [Function.comp_apply]
  omega

/-! ### Composition lemmas for `runAll` -/

theorem runAll_err (f : List Nat) (n : Nat) (s : Iter) (e : Err)
    (h : nextF f (n + 1) s = Except.error e) :
    runAll f (n + 1) s = Except.error e := by
  rw [runAll, h]

theorem runAll_none (f : List Nat) (n : Nat) (s t : Iter) (evs : List Ev)
    (h : nextF f (n + 1) s = Except.ok (none, t, evs)) :
    runAll f (n + 1) s = Except.ok ([], t, evs) := by
  rw [runAll, h]

theorem runAll_some (f : List Nat) (n : Nat) (s : Iter) (c : Chunk) (t : Iter)
    (evs : List Ev) (cs : List Chunk) (u : Iter) (tr : List Ev)
    (h1 : nextF f (n + 1) s = Except.ok (some c, t, evs))
    (h2 : runAll f n t = Except.ok (cs, u, tr)) :
    runAll f (n + 1) s = Except.ok (c :: cs, u, evs ++ tr) := by
  rw [runAll, h1]
  show (match runAll f n t with
    | Except.error e => Except.error e
    | Except.ok (cs, u, evs2) => Except.ok (c :: cs, u, evs ++ evs2)) = _
  rw [h2]

theorem runAll_some_inv (f : List Nat) (n : Nat) (s : Iter) (c : Chunk)
    (t : Iter) (evs : List Ev) (r : List Chunk × Iter × List Ev)
    (h1 : nextF f (n + 1) s = Except.ok (some c, t, evs))
    (h : runAll f (n + 1) s = Except.ok r) :
    ∃ cs u tr, runAll f n t = Except.ok (cs, u, tr) ∧
      r = (c :: cs, u, evs ++ tr) := by
  rw [runAll, h1] at h
  revert h
  show (match runAll f n t with
    | Except.error e => Except.error e
    | Except.ok (cs, u, evs2) => Except.ok (c :: cs, u, evs ++ evs2)) =
      Except.ok r → _
  cases hr : runAll f n t with
  | error e => intro h; cases h
  | ok r2 =>
    obtain ⟨cs, u, tr⟩ := r2
    intro h
    injection h with h
    exact ⟨cs, u, tr, rfl, h.symm⟩

theorem runAll_mono (f : List Nat) :
    ∀ fu s r, runAll f fu s = Except.ok r →
      ∀ fu', fu ≤ fu' → runAll f fu' s = Except.ok r := by
  intro fu
  induction fu with
  | zero => intro s r h; simp [runAll] at h
  | succ n ih =>
    intro s r h fu' hle
    match fu', hle with
    | m + 1, hle =>
      have hm : n ≤ m := Nat.le_of_succ_le_succ hle
      cases hn : nextF f (n + 1) s with
      | error e => rw [runAll_err f n s e hn] at h; cases h
      | ok v =>
        obtain ⟨co, t, evs⟩ := v
        have hn' : nextF f (m + 1) s = Except.ok (co, t, evs) :=
          nextF_mono f (n + 1) s _ hn (m + 1) (by omega)
        cases co with
        | none =>
          rw [runAll_none f n s t evs hn] at h
          rw [runAll_none f m s t evs hn']
          exact h
        | some c =>
          obtain ⟨cs, u, tr, hr, hreq⟩ := runAll_some_inv f n s c t evs r hn h
          rw [hreq]
          exact runAll_some f m s c t evs cs u tr hn' (ih t (cs, u, tr) hr m hm)

theorem runAll_cons_of_next (f : List Nat) (g : Nat) (s : Iter) (c : Chunk)
    (t : Iter) (e : List Ev) (hn : nextF f g s = Except.ok (some c, t, e)) :
    ∀ F cs u tr, runAll f F t = Except.ok (cs, u, tr) →
      ∃ G, runAll f G s = Except.ok (c :: cs, u, e ++ tr) := by
  intro F cs u tr h
  refine ⟨Nat.max g (F + 1), ?_⟩
  have h1 : F + 1 ≤ Nat.max g (F + 1) := Nat.le_max_right _ _
  have h2 : g ≤ Nat.max g (F + 1) := Nat.le_max_left _ _
  have hM : Nat.max g (F + 1) = (Nat.max g (F + 1) - 1) + 1 := by omega
  rw [hM]
  exact runAll_some f _ s c t e cs u tr
    (nextF_mono f g s _ hn _ (by omega))
    (runAll_mono f F t (cs, u, tr) h _ (by omega))

theorem runAll_tau (f : List Nat) (s s' : Iter) (pe : List Ev)
    (hstep : ∀ fu, nextF f (fu + 1) s = wrapEvs pe (nextF f fu s')) :
    ∀ F cs u tr, runAll f F s' = Except.ok (cs, u, tr) →
      ∃ G, runAll f G s = Except.ok (cs, u, pe ++ tr) := by
  intro F cs u tr h
  match F with
  | 0 => simp [runAll] at h
  | n + 1 =>
    cases hn : nextF f (n + 1) s' with
    | error e => rw [runAll_err f n s' e hn] at h; cases h
    | ok v =>
      obtain ⟨co, t, evs⟩ := v
      cases co with
      | none =>
        rw [runAll_none f n s' t evs hn] at h
        injection h with h
        refine ⟨n + 2, ?_⟩
        have hs : nextF f (n + 2) s = Except.ok (none, t, pe ++ evs) := by
          rw [hstep (n + 1), hn, wrapEvs_ok]
        rw [runAll_none f (n + 1) s t (pe ++ evs) hs]
        injection h with hcs h
        injection h with hu htr
        rw [hcs, hu, htr]
      | some c =>
        obtain ⟨cs', u', tr', hr, hreq⟩ :=
          runAll_some_inv f n s' c t evs (cs, u, tr) hn h
        injection hreq with hcs h
        injection h with hu htr
        refine ⟨n + 2, ?_⟩
        have hs : nextF f (n + 2) s = Except.ok (some c, t, pe ++ evs) := by
          rw [hstep (n + 1), hn, wrapEvs_ok]
        have hrun := runAll_some f (n + 1) s c t (pe ++ evs) cs' u' tr' hs
          (runAll_mono f n t (cs', u', tr') hr (n + 1) (by omega))
        rw [hrun, hcs, hu, htr]
        rw [List.append_assoc]

/-! ### Pending level closures -/

/-- The list-end events popping `e` fully consumed levels above a stack
of `base` live levels: `listEnd (base + e - 1), …, listEnd base`. -/
def endEvs (base : Nat) : Nat → List Ev
  | 0 => []
  | e + 1 => Ev.listEnd (base + e) :: endEvs base e

theorem drainS_pend (szs : List Nat) (hne : szs ≠ []) :
    ∀ e, drainS (List.replicate e 0 ++ szs) =
      ((drainS szs).1, endEvs szs.length e ++ (drainS szs).2) := by
  intro e
  induction e with
  | zero => simp [endEvs]
  | succ n ih =>
    have hrep : List.replicate (n + 1) 0 ++ szs =
        0 :: (List.replicate n 0 ++ szs) := by
      rw [List.replicate_succ, List.cons_append]
    obtain ⟨w, ws, hw⟩ : ∃ w ws, List.replicate n 0 ++ szs = w :: ws := by
      cases hx : List.replicate n 0 ++ szs with
      | nil =>
        exact absurd (List.append_eq_nil.mp hx).2 hne
      | cons w ws => exact ⟨w, ws, rfl⟩
    rw [hrep, hw]
    show drainS (0 :: w :: ws) = _
    rw [drainS]
    rw [← hw, ih]
    simp [endEvs, List.length_append, List.length_replicate, Nat.add_comm]

theorem wrapEvs_wrapEvs (p q : List Ev)
    (x : Except Err (Option Chunk × Iter × List Ev)) :
    wrapEvs p (wrapEvs q x) = wrapEvs (p ++ q) x := by
  match x with
  | Except.error e => rfl
  | Except.ok (c, t, evs) => simp [wrapEvs]

theorem wrapEvs_congr (p q : List Ev)
    (x : Except Err (Option Chunk × Iter × List Ev)) (h : p = q) :
    wrapEvs p x = wrapEvs q x := by rw [h]

theorem nextF_pend (f : List Nat) (a : Nat) (szs : List Nat) (hne : szs ≠ [])
    (e fu : Nat) :
    nextF f fu ⟨a, List.replicate e 0 ++ szs⟩ =
      wrapEvs (endEvs szs.length e) (nextF f fu ⟨a, szs⟩) := by
  cases fu with
  | zero => rfl
  | succ n =>
    simp only [nextF, drainS_pend szs hne e]
    split_ifs
    · rw [wrapEvs_ok]
    · rw [wrapEvs_wrapEvs]
      exact wrapEvs_congr _ _ _ (by simp [List.append_assoc])
    · rw [wrapEvs_wrapEvs]
      exact wrapEvs_congr _ _ _ (by simp [List.append_assoc])
    · rfl
    · rw [wrapEvs_wrapEvs]
      exact wrapEvs_congr _ _ _ (by simp [List.append_assoc])
    · rw [wrapEvs_ok]
      simp [List.append_assoc]

theorem runAll_pend (f : List Nat) (a : Nat) (szs : List Nat) (hne : szs ≠ [])
    (e : Nat) :
    ∀ F cs u tr, runAll f F ⟨a, szs⟩ = Except.ok (cs, u, tr) →
      ∃ G, runAll f G ⟨a, List.replicate e 0 ++ szs⟩ =
        Except.ok (cs, u, endEvs szs.length e ++ tr) := by
  intro F cs u tr h
  match F with
  | 0 => simp [runAll] at h
  | n + 1 =>
    cases hn : nextF f (n + 1) ⟨a, szs⟩ with
    | error e' => rw [runAll_err f n _ e' hn] at h; cases h
    | ok v =>
      obtain ⟨co, t, evs⟩ := v
      refine ⟨n + 1, ?_⟩
      cases co with
      | none =>
        rw [runAll_none f n _ t evs hn] at h
        injection h with h
        injection h with hcs h
        injection h with hu htr
        have hs : nextF f (n + 1) ⟨a, List.replicate e 0 ++ szs⟩ =
            Except.ok (none, t, endEvs szs.length e ++ evs) := by
          rw [nextF_pend f a szs hne e (n + 1), hn, wrapEvs_ok]
        rw [runAll_none f n _ t _ hs, hcs, hu, htr]
      | some c =>
        obtain ⟨cs', u', tr', hr, hreq⟩ :=
          runAll_some_inv f n _ c t evs (cs, u, tr) hn h
        injection hreq with hcs h
        injection h with hu htr
        have hs : nextF f (n + 1) ⟨a, List.replicate e 0 ++ szs⟩ =
            Except.ok (some c, t, endEvs szs.length e ++ evs) := by
          rw [nextF_pend f a szs hne e (n + 1), hn, wrapEvs_ok]
        rw [runAll_some f n _ c t _ cs' u' tr' hs hr, hcs, hu, htr]
        rw [List.append_assoc]

/-! ### Small helpers for the main traversal theorem -/

theorem headD_mem (szs : List Nat) (hne : szs ≠ []) : szs.headD 0 ∈ szs := by
  cases szs with
  | nil => exact absurd rfl hne
  | cons b bs => simp

theorem serF_length_leaf (id p : List Nat) (rest : Forest) (h4 : id.length = 4) :
    (serF (Forest.leaf id p rest)).length = 8 + p.length + (serF rest).length := by
  simp [serF, u32le, h4]
  omega

theorem serF_length_listC (ty : List Nat) (inner rest : Forest)
    (h4 : ty.length = 4) :
    (serF (Forest.listC ty inner rest)).length =
      12 + (serF inner).length + (serF rest).length := by
  simp [serF, u32le, h4, LISTtag]
  omega

theorem serF_length_movi (p : List Nat) (rest : Forest) :
    (serF (Forest.moviC p rest)).length = 12 + p.length + (serF rest).length := by
  simp [serF, u32le, MOVItag, LISTtag]
  omega

/-- Core traversal theorem: laid out at `pre.length` inside `f`, a
well-formed forest is consumed by repeated `next` calls exactly: its
leaves are returned in order, its expected trace is emitted, every live
budget is charged by exactly its serialized length, and the traversal
then continues as from the state just past it. -/

theorem processF (fst : Forest) :
    ∀ (k : Nat), wfF k fst = true →
    ∀ (pre post szs f : List Nat),
      f = pre ++ (serF fst ++ post) →
      szs ≠ [] →
      szs.length + k ≤ 10 →
      (∀ b ∈ szs, (serF fst).length ≤ b) →
    ∀ F cs u tr,
      runAll f F ⟨pre.length + (serF fst).length,
        szs.map (fun b => b - (serF fst).length)⟩ = Except.ok (cs, u, tr) →
      ∃ G, runAll f G ⟨pre.length, szs⟩ =
        Except.ok (chF pre.length fst ++ cs, u,
          trF pre.length (szs.length - 1) fst ++ tr) := by
  induction fst with
  | nil =>
    intro k hwf pre post szs f hf hne hlen hbud F cs u tr h
    refine ⟨F, ?_⟩
    simp only [serF, chF, trF, List.length_nil, Nat.add_zero, List.nil_append]
    have hm : szs.map (fun b => b - (serF Forest.nil).length) = szs := by
      simp [serF]
    rw [hm] at h
    simp only [serF, List.length_nil, Nat.add_zero] at h
    exact h
  | leaf id p rest ih =>
    intro k hwf pre post szs f hf hne hlen hbud F cs u tr h
    simp only [wfF, Bool.and_eq_true, decide_eq_true_eq] at hwf
    obtain ⟨⟨⟨⟨hid4, hidL⟩, hidI⟩, hp32⟩, hwfr⟩ := hwf
    have hL : (serF (Forest.leaf id p rest)).length =
        8 + p.length + (serF rest).length := serF_length_leaf id p rest hid4
    -- budgets are nonzero and large enough
    have hb8 : ∀ b ∈ szs, 8 ≤ b := fun b hb => le_trans (by omega) (hbud b hb)
    have h0 : szs.headD 0 ≠ 0 := by
      have := hb8 _ (headD_mem szs hne)
      omega
    -- the file around the cursor
    have hf1 : f = pre ++ (id ++ (u32le p.length ++ (p ++ (serF rest ++ post)))) := by
      rw [hf]; simp [serF, List.append_assoc]
    have hr4 : read4 f pre.length = id := by
      rw [hf1]; exact read4_seg pre id _ hid4
    have hf2 : f = (pre ++ id) ++ (u32le p.length ++ (p ++ (serF rest ++ post))) := by
      rw [hf1]; simp [List.append_assoc]
    have hru : readU32 f (pre.length + 4) = p.length := by
      have := readU32_seg (pre ++ id) p.length (p ++ (serF rest ++ post))
        (by omega)
      rw [← hf2] at this
      rw [List.length_append, hid4] at this
      exact this
    -- the single next call returning this leaf
    have hu1 : uEvs 8 szs = [] := uEvs_nil 8 szs (by omega) hb8
    have hsub8 : subAllSizes 8 szs = szs.map (fun b => b - 8) :=
      subAll_ge 8 szs (by omega) hb8
    have hu2 : uEvs p.length (subAllSizes 8 szs) = [] := by
      rw [hsub8]
      refine uEvs_nil _ _ hp32 ?_
      intro b hb
      obtain ⟨b0, hb0, rfl⟩ := List.mem_map.mp hb
      have := hbud b0 hb0
      omega
    have hsub2 : subAllSizes p.length (subAllSizes 8 szs) =
        szs.map (fun b => b - (8 + p.length)) := by
      refine subAll_twice _ _ _ (by omega) hp32 ?_
      intro b hb
      have := hbud b hb
      omega
    have hnext : nextF f 1 ⟨pre.length, szs⟩ =
        Except.ok (some ⟨pre.length, id, p.length⟩,
          ⟨pre.length + 8 + p.length, szs.map (fun b => b - (8 + p.length))⟩,
          [Ev.chunk pre.length id p.length]) := by
      have := nextF_leaf f 0 ⟨pre.length, szs⟩ h0
        (by rw [hr4]; exact hidL) (by rw [hr4]; exact hidI)
      rw [this]
      simp only [hr4, hru, hu1, hu2, hsub2, List.nil_append, List.append_nil]
    -- the rest of the forest via the induction hypothesis
    have hfr : f = (pre ++ (id ++ u32le p.length ++ p)) ++ (serF rest ++ post) := by
      rw [hf1]; simp [List.append_assoc]
    have hprer : (pre ++ (id ++ u32le p.length ++ p)).length =
        pre.length + 8 + p.length := by
      simp [List.length_append, hid4, u32le]
      omega
    have hih := ih k hwfr (pre ++ (id ++ u32le p.length ++ p)) post
      (szs.map (fun b => b - (8 + p.length))) f hfr
      (by simp [hne])
      (by rw [List.length_map]; omega)
      (by intro b hb
          obtain ⟨b0, hb0, rfl⟩ := List.mem_map.mp hb
          have := hbud b0 hb0
          omega)
      F cs u tr
    rw [hprer] at hih
    have harg : (szs.map (fun b => b - (8 + p.length))).map
        (fun b => b - (serF rest).length) =
        szs.map (fun b => b - (serF (Forest.leaf id p rest)).length) := by
      rw [map_sub_map_sub, hL]
    have harg2 : pre.length + 8 + p.length + (serF rest).length =
        pre.length + (serF (Forest.leaf id p rest)).length := by
      rw [hL]; omega
    rw [harg, harg2] at hih
    obtain ⟨G1, hG1⟩ := hih h
    -- stitch the leaf in front
    obtain ⟨G, hG⟩ := runAll_cons_of_next f 1 ⟨pre.length, szs⟩
      ⟨pre.length, id, p.length⟩ _ _ hnext G1 _ _ _ hG1
    refine ⟨G, ?_⟩
    rw [hG]
    simp only [chF, trF, List.length_map, List.cons_append, List.singleton_append,
      List.nil_append]
  | listC ty inner rest ih_inner ih_rest =>
    intro k hwf pre post szs f hf hne hlen hbud F cs u tr h
    simp only [wfF, Bool.and_eq_true, decide_eq_true_eq] at hwf
    obtain ⟨⟨⟨⟨⟨hk, hty4⟩, htyM⟩, hsz32⟩, hwfi⟩, hwfr⟩ := hwf
    have hL : (serF (Forest.listC ty inner rest)).length =
        12 + (serF inner).length + (serF rest).length :=
      serF_length_listC ty inner rest hty4
    have hbud' : ∀ b ∈ szs,
        12 + (serF inner).length + (serF rest).length ≤ b := by
      intro b hb
      have := hbud b hb
      omega
    have hb12 : ∀ b ∈ szs, 12 ≤ b := fun b hb => le_trans (by omega) (hbud' b hb)
    have h0 : szs.headD 0 ≠ 0 := by
      have := hb12 _ (headD_mem szs hne)
      omega
    have hlt10 : szs.length < 10 := by omega
    have hd1 : szs.length - 1 + 1 = szs.length := by
      have := List.length_pos.mpr hne
      omega
    -- reads around the cursor
    have hf1 : f = pre ++ (LISTtag ++ (u32le (4 + (serF inner).length) ++
        (ty ++ (serF inner ++ (serF rest ++ post))))) := by
      rw [hf]; simp [serF, List.append_assoc]
    have hr4 : read4 f pre.length = LISTtag := by
      rw [hf1]; exact read4_seg pre LISTtag _ (by rfl)
    have hf2 : f = (pre ++ LISTtag) ++ (u32le (4 + (serF inner).length) ++
        (ty ++ (serF inner ++ (serF rest ++ post)))) := by
      rw [hf1]; simp [List.append_assoc]
    have hru : readU32 f (pre.length + 4) = 4 + (serF inner).length := by
      have h' := readU32_seg (pre ++ LISTtag) (4 + (serF inner).length)
        (ty ++ (serF inner ++ (serF rest ++ post))) (by omega)
      rw [← hf2] at h'
      simpa [List.length_append, LISTtag] using h'
    have hf3 : f = ((pre ++ LISTtag) ++ u32le (4 + (serF inner).length)) ++
        (ty ++ (serF inner ++ (serF rest ++ post))) := by
      rw [hf1]; simp [List.append_assoc]
    have hrty : read4 f (pre.length + 8) = ty := by
      have h' := read4_seg ((pre ++ LISTtag) ++ u32le (4 + (serF inner).length))
        ty (serF inner ++ (serF rest ++ post)) hty4
      rw [← hf3] at h'
      simpa [List.length_append, LISTtag, u32le, Nat.add_assoc] using h'
    -- budgets after entering
    have hsub8 : subAllSizes 8 szs = szs.map (fun b => b - 8) :=
      subAll_ge 8 szs (by omega) (fun b hb => by have := hb12 b hb; omega)
    have hszs2 : subAllSizes 4 ((4 + (serF inner).length) :: subAllSizes 8 szs) =
        (serF inner).length :: szs.map (fun b => b - 12) := by
      simp only [subAllSizes, List.map_cons]
      rw [show chargeOne 4 (4 + (serF inner).length) = (serF inner).length by
        simp [chargeOne, toSizeT]]
      have h12 : subAllSizes 4 (subAllSizes 8 szs) =
          szs.map (fun b => b - (8 + 4)) :=
        subAll_twice 8 4 szs (by omega) (by omega)
          (fun b hb => by have := hb12 b hb; omega)
      simp only [subAllSizes] at h12
      rw [List.map_map] at h12 ⊢
      rw [h12]
    have hu1 : uEvs 8 szs = [] :=
      uEvs_nil 8 szs (by omega) (fun b hb => by have := hb12 b hb; omega)
    have hu2 : uEvs 4 ((4 + (serF inner).length) :: subAllSizes 8 szs) = [] := by
      refine uEvs_nil _ _ (by omega) ?_
      intro b hb
      rcases List.mem_cons.mp hb with rfl | hb
      · omega
      · rw [hsub8] at hb
        obtain ⟨b0, hb0, rfl⟩ := List.mem_map.mp hb
        have := hb12 b0 hb0
        omega
    -- the silent entry step
    have e12 : pre.length + 8 + 4 = pre.length + 12 := by omega
    have hstep : ∀ fu, nextF f (fu + 1) ⟨pre.length, szs⟩ =
        wrapEvs [Ev.listStart szs.length pre.length LISTtag
            (4 + (serF inner).length) ty]
          (nextF f fu ⟨pre.length + 12,
            (serF inner).length :: szs.map (fun b => b - 12)⟩) := by
      intro fu
      rw [nextF_list_plain f fu ⟨pre.length, szs⟩ h0 hr4 hlt10
        (by rw [hrty]; exact htyM)]
      simp only [hru, hrty, hu1, hu2, hszs2, List.nil_append, List.append_nil]
    -- induction on the rest of the forest
    have hfr : f = (pre ++ (LISTtag ++ u32le (4 + (serF inner).length) ++ ty ++
        serF inner)) ++ (serF rest ++ post) := by
      rw [hf1]; simp [List.append_assoc]
    have hprer : (pre ++ (LISTtag ++ u32le (4 + (serF inner).length) ++ ty ++
        serF inner)).length = pre.length + 12 + (serF inner).length := by
      simp [List.length_append, LISTtag, u32le, hty4]
      omega
    have hihr := ih_rest k hwfr
      (pre ++ (LISTtag ++ u32le (4 + (serF inner).length) ++ ty ++ serF inner))
      post (szs.map (fun b => b - (12 + (serF inner).length))) f hfr
      (by simp [hne])
      (by rw [List.length_map]; omega)
      (by intro b hb
          obtain ⟨b0, hb0, rfl⟩ := List.mem_map.mp hb
          have := hbud' b0 hb0
          omega)
      F cs u tr
    rw [hprer] at hihr
    have harg : (szs.map (fun b => b - (12 + (serF inner).length))).map
        (fun b => b - (serF rest).length) =
        szs.map (fun b => b - (serF (Forest.listC ty inner rest)).length) := by
      rw [map_sub_map_sub, hL]
    have harg2 : pre.length + 12 + (serF inner).length + (serF rest).length =
        pre.length + (serF (Forest.listC ty inner rest)).length := by
      rw [hL]; omega
    rw [harg, harg2] at hihr
    obtain ⟨G2, hG2⟩ := hihr h
    -- close the entered level (its budget reached 0)
    obtain ⟨G3, hG3⟩ := runAll_pend f (pre.length + 12 + (serF inner).length)
      (szs.map (fun b => b - (12 + (serF inner).length))) (by simp [hne]) 1
      G2 _ _ _ hG2
    rw [List.length_map] at hG3
    -- induction on the inner forest
    have hfi : f = (pre ++ (LISTtag ++ u32le (4 + (serF inner).length) ++ ty)) ++
        (serF inner ++ (serF rest ++ post)) := by
      rw [hf1]; simp [List.append_assoc]
    have hprei : (pre ++ (LISTtag ++ u32le (4 + (serF inner).length) ++
        ty)).length = pre.length + 12 := by
      simp [List.length_append, LISTtag, u32le, hty4]
    have hihi := ih_inner (k - 1) hwfi
      (pre ++ (LISTtag ++ u32le (4 + (serF inner).length) ++ ty))
      (serF rest ++ post)
      ((serF inner).length :: szs.map (fun b => b - 12)) f hfi
      (by simp)
      (by simp only [List.length_cons, List.length_map]; omega)
      (by intro b hb
          rcases List.mem_cons.mp hb with rfl | hb
          · exact Nat.le_refl _
          · obtain ⟨b0, hb0, rfl⟩ := List.mem_map.mp hb
            have := hbud' b0 hb0
            omega)
      G3 (chF (pre.length + 12 + (serF inner).length) rest ++ cs) u
      (Ev.listEnd szs.length ::
        (trF (pre.length + 12 + (serF inner).length) (szs.length - 1) rest ++ tr))
    rw [hprei] at hihi
    have hargi : ((serF inner).length :: szs.map (fun b => b - 12)).map
        (fun b => b - (serF inner).length) =
        0 :: szs.map (fun b => b - (12 + (serF inner).length)) := by
      rw [List.map_cons, Nat.sub_self, map_sub_map_sub]
    have hG3' : runAll f G3 ⟨pre.length + 12 + (serF inner).length,
        ((serF inner).length :: szs.map (fun b => b - 12)).map
          (fun b => b - (serF inner).length)⟩ =
        Except.ok (chF (pre.length + 12 + (serF inner).length) rest ++ cs, u,
          Ev.listEnd szs.length ::
            (trF (pre.length + 12 + (serF inner).length) (szs.length - 1) rest ++
              tr)) := by
      rw [hargi]
      have hrep : List.replicate 1 0 ++
          szs.map (fun b => b - (12 + (serF inner).length)) =
          0 :: szs.map (fun b => b - (12 + (serF inner).length)) := by
        simp
      rw [← hrep]
      rw [hG3]
      simp [endEvs]
    have hargadd : pre.length + 12 + (serF inner).length =
        pre.length + 12 + (serF inner).length := rfl
    obtain ⟨G4, hG4⟩ := hihi hG3'
    -- fold the entry step in front
    rw [show ((serF inner).length :: szs.map (fun b => b - 12)).length - 1 =
        szs.length by simp] at hG4
    obtain ⟨G, hG⟩ := runAll_tau f ⟨pre.length, szs⟩
      ⟨pre.length + 12, (serF inner).length :: szs.map (fun b => b - 12)⟩
      [Ev.listStart szs.length pre.length LISTtag (4 + (serF inner).length) ty]
      hstep G4 _ _ _ hG4
    refine ⟨G, ?_⟩
    rw [hG]
    simp only [chF, trF, hd1, List.cons_append, List.singleton_append,
      List.nil_append, List.append_assoc]
  | moviC p rest ih =>
    intro k hwf pre post szs f hf hne hlen hbud F cs u tr h
    simp only [wfF, Bool.and_eq_true, decide_eq_true_eq] at hwf
    obtain ⟨⟨hk, hp32⟩, hwfr⟩ := hwf
    have hL : (serF (Forest.moviC p rest)).length =
        12 + p.length + (serF rest).length := serF_length_movi p rest
    have hbud' : ∀ b ∈ szs, 12 + p.length + (serF rest).length ≤ b := by
      intro b hb
      have := hbud b hb
      omega
    have hb12 : ∀ b ∈ szs, 12 ≤ b := fun b hb => le_trans (by omega) (hbud' b hb)
    have h0 : szs.headD 0 ≠ 0 := by
      have := hb12 _ (headD_mem szs hne)
      omega
    have hlt10 : szs.length < 10 := by omega
    have hd1 : szs.length - 1 + 1 = szs.length := by
      have := List.length_pos.mpr hne
      omega
    -- reads around the cursor
    have hf1 : f = pre ++ (LISTtag ++ (u32le (4 + p.length) ++
        (MOVItag ++ (p ++ (serF rest ++ post))))) := by
      rw [hf]; simp [serF, List.append_assoc]
    have hr4 : read4 f pre.length = LISTtag := by
      rw [hf1]; exact read4_seg pre LISTtag _ (by rfl)
    have hf2 : f = (pre ++ LISTtag) ++ (u32le (4 + p.length) ++
        (MOVItag ++ (p ++ (serF rest ++ post)))) := by
      rw [hf1]; simp [List.append_assoc]
    have hru : readU32 f (pre.length + 4) = 4 + p.length := by
      have h' := readU32_seg (pre ++ LISTtag) (4 + p.length)
        (MOVItag ++ (p ++ (serF rest ++ post))) (by omega)
      rw [← hf2] at h'
      simpa [List.length_append, LISTtag] using h'
    have hf3 : f = ((pre ++ LISTtag) ++ u32le (4 + p.length)) ++
        (MOVItag ++ (p ++ (serF rest ++ post))) := by
      rw [hf1]; simp [List.append_assoc]
    have hrty : read4 f (pre.length + 8) = MOVItag := by
      have h' := read4_seg ((pre ++ LISTtag) ++ u32le (4 + p.length))
        MOVItag (p ++ (serF rest ++ post)) (by rfl)
      rw [← hf3] at h'
      simpa [List.length_append, LISTtag, u32le, Nat.add_assoc] using h'
    -- budgets after the skip
    have hsub8 : subAllSizes 8 szs = szs.map (fun b => b - 8) :=
      subAll_ge 8 szs (by omega) (fun b hb => by have := hb12 b hb; omega)
    have hszs2 : subAllSizes (4 + p.length)
        ((4 + p.length) :: subAllSizes 8 szs) =
        0 :: szs.map (fun b => b - (12 + p.length)) := by
      simp only [subAllSizes, List.map_cons]
      rw [chargeOne_self (4 + p.length)]
      have h12 : subAllSizes (4 + p.length) (subAllSizes 8 szs) =
          szs.map (fun b => b - (8 + (4 + p.length))) :=
        subAll_twice 8 (4 + p.length) szs (by omega) hp32
          (fun b hb => by have := hbud' b hb; omega)
      simp only [subAllSizes] at h12
      rw [List.map_map] at h12 ⊢
      rw [h12]
      congr 1
      apply List.map_congr_left
      intro b _
      omega
    have hu1 : uEvs 8 szs = [] :=
      uEvs_nil 8 szs (by omega) (fun b hb => by have := hb12 b hb; omega)
    have hu2 : uEvs (4 + p.length) ((4 + p.length) :: subAllSizes 8 szs) = [] := by
      refine uEvs_nil _ _ hp32 ?_
      intro b hb
      rcases List.mem_cons.mp hb with rfl | hb
      · exact Nat.le_refl _
      · rw [hsub8] at hb
        obtain ⟨b0, hb0, rfl⟩ := List.mem_map.mp hb
        have := hbud' b0 hb0
        omega
    -- the skip step
    have e12 : pre.length + 8 + (4 + p.length) = pre.length + 12 + p.length := by
      omega
    have hstep : ∀ fu, nextF f (fu + 1) ⟨pre.length, szs⟩ =
        wrapEvs [Ev.listStart szs.length pre.length LISTtag (4 + p.length)
            MOVItag]
          (nextF f fu ⟨pre.length + 12 + p.length,
            0 :: szs.map (fun b => b - (12 + p.length))⟩) := by
      intro fu
      rw [nextF_list_movi f fu ⟨pre.length, szs⟩ h0 hr4 hlt10 hrty]
      simp only [hru, hrty, hu1, hu2, hszs2, List.nil_append, List.append_nil]
      rw [e12]
    -- induction on the rest of the forest
    have hfr : f = (pre ++ (LISTtag ++ u32le (4 + p.length) ++ MOVItag ++ p)) ++
        (serF rest ++ post) := by
      rw [hf1]; simp [List.append_assoc]
    have hprer : (pre ++ (LISTtag ++ u32le (4 + p.length) ++ MOVItag ++
        p)).length = pre.length + 12 + p.length := by
      simp [List.length_append, LISTtag, u32le, MOVItag]
      omega
    have hihr := ih k hwfr
      (pre ++ (LISTtag ++ u32le (4 + p.length) ++ MOVItag ++ p)) post
      (szs.map (fun b => b - (12 + p.length))) f hfr
      (by simp [hne])
      (by rw [List.length_map]; omega)
      (by intro b hb
          obtain ⟨b0, hb0, rfl⟩ := List.mem_map.mp hb
          have := hbud' b0 hb0
          omega)
      F cs u tr
    rw [hprer] at hihr
    have harg : (szs.map (fun b => b - (12 + p.length))).map
        (fun b => b - (serF rest).length) =
        szs.map (fun b => b - (serF (Forest.moviC p rest)).length) := by
      rw [map_sub_map_sub, hL]
    have harg2 : pre.length + 12 + p.length + (serF rest).length =
        pre.length + (serF (Forest.moviC p rest)).length := by
      rw [hL]; omega
    rw [harg, harg2] at hihr
    obtain ⟨G2, hG2⟩ := hihr h
    -- close the collapsed movi level
    obtain ⟨G3, hG3⟩ := runAll_pend f (pre.length + 12 + p.length)
      (szs.map (fun b => b - (12 + p.length))) (by simp [hne]) 1 G2 _ _ _ hG2
    rw [List.length_map] at hG3
    have hrep : List.replicate 1 0 ++
        szs.map (fun b => b - (12 + p.length)) =
        0 :: szs.map (fun b => b - (12 + p.length)) := by
      simp
    rw [hrep] at hG3
    -- fold the skip step in front
    obtain ⟨G, hG⟩ := runAll_tau f ⟨pre.length, szs⟩
      ⟨pre.length + 12 + p.length, 0 :: szs.map (fun b => b - (12 + p.length))⟩
      [Ev.listStart szs.length pre.length LISTtag (4 + p.length) MOVItag]
      hstep G3 _ _ _ hG3
    refine ⟨G, ?_⟩
    rw [hG]
    simp only [chF, trF, hd1, endEvs, List.cons_append, List.singleton_append,
      List.nil_append, List.append_assoc, Nat.add_zero]

/-! ### Properties of the expected trace: depth-first order and nesting -/

/-- The offsets carried by a trace's chunk and list-start events, in order. -/
def offsOf (evs : List Ev) : List Nat := evs.filterMap evOff

/-- Stack-discipline checker: starting at nesting height `h`, every
list-start must carry level `h + 1` and pushes, every list-end must
carry the current height and pops; returns the final height, `none` on
any violation. -/
def nestedFrom : Nat → List Ev → Option Nat
  | h, [] => some h
  | h, Ev.listStart lv _ _ _ _ :: rest =>
    if lv = h + 1 then nestedFrom (h + 1) rest else none
  | h, Ev.listEnd lv :: rest =>
    if lv = h ∧ 0 < h then nestedFrom (h - 1) rest else none
  | h, Ev.underflow _ _ _ :: rest => nestedFrom h rest
  | h, Ev.chunk _ _ _ :: rest => nestedFrom h rest

theorem nestedFrom_append (x y : List Ev) : ∀ h,
    nestedFrom h (x ++ y) =
      (match nestedFrom h x with
        | some h' => nestedFrom h' y
        | none => none) := by
  induction x with
  | nil => intro h; simp [nestedFrom]
  | cons ev rest ih =>
    intro h
    cases ev with
    | listStart lv off id sz ty =>
      simp only [List.cons_append, nestedFrom]
      split_ifs with hc
      · exact ih _
      · rfl
    | listEnd lv =>
      simp only [List.cons_append, nestedFrom]
      split_ifs with hc
      · exact ih _
      · rfl
    | underflow d l L =>
      simp only [List.cons_append, nestedFrom]
      exact ih h
    | chunk o i s =>
      simp only [List.cons_append, nestedFrom]
      exact ih h

/-- The expected trace of a forest is well nested: read at its own
depth, it returns to that depth and never violates the stack discipline. -/
theorem trF_nested (fst : Forest) : ∀ a d, nestedFrom d (trF a d fst) = some d := by
  induction fst with
  | nil => intro a d; rfl
  | leaf id p rest ih =>
    intro a d
    simp only [trF, nestedFrom]
    exact ih _ d
  | listC ty inner rest ih_inner ih_rest =>
    intro a d
    simp only [trF, nestedFrom, if_pos rfl]
    rw [nestedFrom_append, ih_inner (a + 12) (d + 1)]
    simp only [nestedFrom]
    simp only [true_and]
    rw [if_pos (Nat.succ_pos d)]
    simp only [Nat.add_sub_cancel]
    exact ih_rest _ d
  | moviC p rest ih =>
    intro a d
    simp only [trF, nestedFrom, if_pos rfl]
    simp only [true_and]
    rw [if_pos (Nat.succ_pos d)]
    simp only [Nat.add_sub_cancel]
    exact ih _ d

theorem offsOf_append (x y : List Ev) : offsOf (x ++ y) = offsOf x ++ offsOf y :=
  List.filterMap_append x y evOff

theorem offsOf_chunk (o : Nat) (i : List Nat) (s : Nat) (rest : List Ev) :
    offsOf (Ev.chunk o i s :: rest) = o :: offsOf rest := rfl

theorem offsOf_start (lv o : Nat) (i : List Nat) (s : Nat) (ty : List Nat)
    (rest : List Ev) :
    offsOf (Ev.listStart lv o i s ty :: rest) = o :: offsOf rest := rfl

theorem offsOf_end (lv : Nat) (rest : List Ev) :
    offsOf (Ev.listEnd lv :: rest) = offsOf rest := rfl

/-- Depth-first order of the expected trace of a well-formed forest: the
offsets of its chunk and list-start events all lie inside its serialized
extent and are strictly increasing. -/
theorem trF_offs (fst : Forest) : ∀ k, wfF k fst = true → ∀ a d,
    (∀ o ∈ offsOf (trF a d fst), a ≤ o ∧ o < a + (serF fst).length) ∧
    List.Pairwise (· < ·) (offsOf (trF a d fst)) := by
  induction fst with
  | nil =>
    intro k hwf a d
    exact ⟨by intro o ho; simp [trF, offsOf] at ho, by simp [trF, offsOf]⟩
  | leaf id p rest ih =>
    intro k hwf a d
    simp only [wfF, Bool.and_eq_true, decide_eq_true_eq] at hwf
    obtain ⟨⟨⟨⟨hid4, -⟩, -⟩, -⟩, hwfr⟩ := hwf
    have hL : (serF (Forest.leaf id p rest)).length =
        8 + p.length + (serF rest).length := serF_length_leaf id p rest hid4
    obtain ⟨ihb, ihp⟩ := ih k hwfr (a + 8 + p.length) d
    simp only [trF, offsOf_chunk]
    constructor
    · intro o ho
      rcases List.mem_cons.mp ho with rfl | ho
      · omega
      · have := ihb o ho
        omega
    · rw [List.pairwise_cons]
      refine ⟨fun o ho => ?_, ihp⟩
      have := ihb o ho
      omega
  | listC ty inner rest ih_inner ih_rest =>
    intro k hwf a d
    simp only [wfF, Bool.and_eq_true, decide_eq_true_eq] at hwf
    obtain ⟨⟨⟨⟨⟨-, hty4⟩, -⟩, -⟩, hwfi⟩, hwfr⟩ := hwf
    have hL : (serF (Forest.listC ty inner rest)).length =
        12 + (serF inner).length + (serF rest).length :=
      serF_length_listC ty inner rest hty4
    obtain ⟨ihbI, ihpI⟩ := ih_inner (k - 1) hwfi (a + 12) (d + 1)
    obtain ⟨ihbR, ihpR⟩ := ih_rest k hwfr (a + 12 + (serF inner).length) d
    simp only [trF, offsOf_start, offsOf_append, offsOf_end]
    constructor
    · intro o ho
      rcases List.mem_cons.mp ho with rfl | ho
      · omega
      · rcases List.mem_append.mp ho with ho | ho
        · have := ihbI o ho
          omega
        · have := ihbR o ho
          omega
    · rw [List.pairwise_cons, List.pairwise_append]
      refine ⟨fun o ho => ?_, ihpI, ihpR, fun o1 h1 o2 h2 => ?_⟩
      · rcases List.mem_append.mp ho with ho | ho
        · have := ihbI o ho
          omega
        · have := ihbR o ho
          omega
      · have hb1 := ihbI o1 h1
        have hb2 := ihbR o2 h2
        omega
  | moviC p rest ih =>
    intro k hwf a d
    simp only [wfF, Bool.and_eq_true, decide_eq_true_eq] at hwf
    obtain ⟨⟨-, -⟩, hwfr⟩ := hwf
    have hL : (serF (Forest.moviC p rest)).length =
        12 + p.length + (serF rest).length := serF_length_movi p rest
    obtain ⟨ihb, ihp⟩ := ih k hwfr (a + 12 + p.length) d
    simp only [trF, offsOf_start, offsOf_end]
    constructor
    · intro o ho
      rcases List.mem_cons.mp ho with rfl | ho
      · omega
      · have := ihb o ho
        omega
    · rw [List.pairwise_cons]
      refine ⟨fun o ho => ?_, ihp⟩
      have := ihb o ho
      omega

/-- C2: for every well-formed file (a master header followed by a
serialized well-formed forest whose nesting stays within the depth
bound), repeated `next` calls run to end-of-stream and emit exactly the
forest's expected depth-first trace: the returned chunks are its leaves
in file order, every offset-carrying event is emitted in strictly
increasing byte-offset order (list-start at a level strictly before
everything inside that level), and the list-start/list-end sequence
obeys the stack discipline, each start matched by a later end with ends
in LIFO order, returning to depth 0. -/
theorem c2_wellformed_depth_first_nested (fst : Forest) (k : Nat)
    (hdr : List Nat) (hwf : wfF k fst = true) (hk : k ≤ 9)
    (hhdr : hdr.length = 12) :
    ∃ G,
      runAll (hdr ++ serF fst) G (riff_iter_new (hdr ++ serF fst).length) =
        Except.ok (chF 12 fst, ⟨12 + (serF fst).length, [0]⟩, trF 12 0 fst) ∧
      List.Pairwise (· < ·) (offsOf (trF 12 0 fst)) ∧
      nestedFrom 0 (trF 12 0 fst) = some 0 := by
  have hfeq : hdr ++ serF fst = hdr ++ (serF fst ++ []) := by simp
  have heos : nextF (hdr ++ serF fst) 1
      ⟨hdr.length + (serF fst).length, [0]⟩ =
      Except.ok (none, ⟨hdr.length + (serF fst).length, [0]⟩, []) :=
    nextF_eos _ 0 _ [] (by simp [drainS])
  have hrun1 : runAll (hdr ++ serF fst) 1
      ⟨hdr.length + (serF fst).length, [0]⟩ =
      Except.ok ([], ⟨hdr.length + (serF fst).length, [0]⟩, []) :=
    runAll_none _ 0 _ _ _ heos
  have hproc := processF fst k hwf hdr [] [(serF fst).length]
    (hdr ++ serF fst) hfeq (by simp)
    (by simp only [List.length_singleton]; omega)
    (by intro b hb; simp only [List.mem_singleton] at hb; omega)
    1 [] ⟨hdr.length + (serF fst).length, [0]⟩ []
  have hmap : [(serF fst).length].map (fun b => b - (serF fst).length) =
      [0] := by simp
  rw [hmap] at hproc
  obtain ⟨G, hG⟩ := hproc hrun1
  refine ⟨G, ?_, (trF_offs fst k hwf 12 0).2, trF_nested fst 12 0⟩
  have hlen : (hdr ++ serF fst).length = 12 + (serF fst).length := by
    simp [List.length_append, hhdr]
  have hinit : riff_iter_new (hdr ++ serF fst).length =
      ⟨hdr.length, [(serF fst).length]⟩ := by
    simp [riff_iter_new, hlen, hhdr]
  rw [hinit, hhdr]
  rw [hhdr] at hG
  simpa using hG

/-- Scenario C forest: one `LIST` of type `"INFO"` containing a single
leaf `"INAM"` with a 2-byte payload. -/
def forestC : Forest :=
  Forest.listC INFOtag (Forest.leaf [73, 78, 65, 77] [5, 6] Forest.nil)
    Forest.nil

/-- Witness for C2 at the Scenario C file. -/
theorem c2_wellformed_depth_first_nested_witness :
    ∃ G,
      runAll ((RIFFtag ++ u32le 26 ++ WAVEtag) ++ serF forestC) G
          (riff_iter_new ((RIFFtag ++ u32le 26 ++ WAVEtag) ++
            serF forestC).length) =
        Except.ok (chF 12 forestC, ⟨12 + (serF forestC).length, [0]⟩,
          trF 12 0 forestC) ∧
      List.Pairwise (· < ·) (offsOf (trF 12 0 forestC)) ∧
      nestedFrom 0 (trF 12 0 forestC) = some 0 :=
  c2_wellformed_depth_first_nested forestC 1 (RIFFtag ++ u32le 26 ++ WAVEtag)
    (by rfl) (by decide) (by rfl)
